import Mathlib

/-!
Verification of the big-number arithmetic engine (`src/arithmetic.c`).

A `BigNum` is modelled as a `List Nat` of 32-bit blocks, least-significant
block first (the C struct's `data` array; `len` is the list length).  The C
functions that can fail — either by returning `NULL` (division by zero,
negative subtraction result, malformed hex input) or by tripping the
in-bounds `assert` in `bn_write_block` — are modelled in an `Except BnError`
monad with one error value per failure kind, so that "fails with X" and
"the assertion never fails" are both expressible.
-/

namespace BigNumC

/-- The failure kinds of the engine: malformed hex input, a subtraction whose
result would be negative, division/modulo by zero, and a violation of the
in-bounds assertion in `bn_write_block`. -/
inductive BnError where
  | invalidInput
  | negativeResult
  | divideByZero
  | assertFail
deriving DecidableEq

/-- `bn_get_block`: block at `offset`, or 0 if the offset is out of bounds. -/
def bn_get_block : List Nat → Nat → Nat
  | [], _ => 0
  | b :: _, 0 => b
  | _ :: rest, o + 1 => bn_get_block rest o

/-- In-place update of the block at `offset` (helper for `bn_write_block`). -/
def bn_set : List Nat → Nat → Nat → List Nat
  | [], _, _ => []
  | _ :: rest, 0, v => v :: rest
  | b :: rest, o + 1, v => b :: bn_set rest o v

/-- `bn_write_block`: writes `v` at `offset`; the C function asserts that
`offset` is in bounds, modelled as the `assertFail` error. -/
def bn_write_block (n : List Nat) (offset v : Nat) : Except BnError (List Nat) :=
  if offset < n.length then .ok (bn_set n offset v) else .error .assertFail

/-- Drop leading zero blocks of a most-significant-first block list, keeping
at least one block (the core of `bn_trim`, acting on the reversed list). -/
def msTrim : List Nat → List Nat
  | [] => []
  | [b] => [b]
  | b :: rest => if b = 0 then msTrim rest else b :: rest

/-- `bn_trim`: trims all leading (most-significant) zero blocks, down to
length 1 at most. -/
def bn_trim (n : List Nat) : List Nat := (msTrim n.reverse).reverse

/-- `bn_zero`: single block 0. -/
def bn_zero : List Nat := [0]

/-- `bn_one`: single block 1. -/
def bn_one : List Nat := [1]

/-- `bn_from_uint32_t`: single block holding the given 32-bit value. -/
def bn_from_uint32_t (v : Nat) : List Nat := [v % 2 ^ 32]

/-- `bn_with_len`: a zero-filled buffer of `len` blocks. -/
def bn_with_len (len : Nat) : List Nat := List.replicate len 0

/-- Numeric value of a block list: Σ block i * 2^(32 i). -/
def bn_value : List Nat → Nat
  | [] => 0
  | b :: rest => b + 2 ^ 32 * bn_value rest

/-- Numeric value of a most-significant-first block list. -/
def msValue : List Nat → Nat
  | [] => 0
  | b :: rest => b * 2 ^ (32 * rest.length) + msValue rest

/-- Value of the blocks from `offset` upward, in units of 2^(32 offset). -/
def valFrom (n : List Nat) (offset : Nat) : Nat := bn_value (n.drop offset)

/-- All blocks fit in 32 bits (automatic for any BigNum built by the C code,
whose blocks have type `uint32_t`). -/
def Blocks32 (n : List Nat) : Prop := ∀ b ∈ n, b < 2 ^ 32

/-- Canonical form: at least one block, and either a single block or a
nonzero most-significant block. -/
def bn_canonical (n : List Nat) : Prop :=
  n ≠ [] ∧ (n.length = 1 ∨ n.getLastD 0 ≠ 0)

instance : DecidablePred bn_canonical := fun n => by
  unfold bn_canonical; infer_instance

/-- Most-significant-first comparison of two equally long block lists
(the inner loop of `bn_compare`). -/
def cmpMS : List Nat → List Nat → Int
  | a :: as, b :: bs => if a > b then 1 else if a < b then -1 else cmpMS as bs
  | _, _ => 0

/-- `bn_compare`: longer canonical length wins; on equal length, compare
blocks from the most significant downward. -/
def bn_compare (n1 n2 : List Nat) : Int :=
  if n2.length < n1.length then 1
  else if n1.length < n2.length then -1
  else cmpMS n1.reverse n2.reverse

/-- `bn_greater_than`. -/
def bn_greater_than (n1 n2 : List Nat) : Bool := decide (0 < bn_compare n1 n2)

/-- `bn_less_than`. -/
def bn_less_than (n1 n2 : List Nat) : Bool := decide (bn_compare n1 n2 < 0)

/-- `bn_equal_to`. -/
def bn_equal_to (n1 n2 : List Nat) : Bool := decide (bn_compare n1 n2 = 0)

/-- The block list produced by the `bn_add` loop: 64-bit sum of carry and the
two blocks at each offset, low 32 bits kept, carry 1 iff the sum did not fit
in 32 bits. -/
def addBlocks (n1 n2 : List Nat) (transfer offset count : Nat) : List Nat :=
  match count with
  | 0 => []
  | c + 1 =>
    let s := (transfer + bn_get_block n1 offset + bn_get_block n2 offset) % 2 ^ 64
    let b := s % 2 ^ 32
    b :: addBlocks n1 n2 (if b = s then 0 else 1) (offset + 1) c

/-- The write loop of `bn_add`, iterating `count` offsets into `result`. -/
def addWriteLoop (n1 n2 : List Nat) (transfer offset count : Nat) (result : List Nat) :
    Except BnError (List Nat) :=
  match count with
  | 0 => .ok result
  | c + 1 =>
    let s := (transfer + bn_get_block n1 offset + bn_get_block n2 offset) % 2 ^ 64
    let b := s % 2 ^ 32
    match bn_write_block result offset b with
    | .error e => .error e
    | .ok result' => addWriteLoop n1 n2 (if b = s then 0 else 1) (offset + 1) c result'

/-- `bn_add`: allocates max(len1, len2) + 1 blocks, runs the carry loop over
every offset, and trims the result. -/
def bn_add (n1 n2 : List Nat) : Except BnError (List Nat) :=
  let greater_len := if n2.length < n1.length then n1.length else n2.length
  let result_len := greater_len + 1
  match addWriteLoop n1 n2 0 0 result_len (bn_with_len result_len) with
  | .error e => .error e
  | .ok r => .ok (bn_trim r)

/-! ### Basic lemmas about values, blocks and buffers -/

theorem bn_get_block_lt {n : List Nat} (h : Blocks32 n) (o : Nat) :
    bn_get_block n o < 2 ^ 32 := by
  induction n generalizing o with
  | nil => simp [bn_get_block]
  | cons b rest ih =>
    cases o with
    | zero => exact h b (by simp)
    | succ o => exact ih (fun x hx => h x (by simp [hx])) o

theorem valFrom_zero (n : List Nat) : valFrom n 0 = bn_value n := by
  simp [valFrom]

theorem valFrom_succ (n : List Nat) (o : Nat) :
    valFrom n o = bn_get_block n o + 2 ^ 32 * valFrom n (o + 1) := by
  induction n generalizing o with
  | nil => simp [valFrom, bn_get_block, bn_value]
  | cons b rest ih =>
    cases o with
    | zero => simp [valFrom, bn_get_block, bn_value]
    | succ o => simpa [valFrom, bn_get_block] using ih o

theorem valFrom_of_le_length {n : List Nat} {o : Nat} (h : n.length ≤ o) :
    valFrom n o = 0 := by
  simp [valFrom, List.drop_eq_nil_of_le h, bn_value]

theorem bn_value_lt {n : List Nat} (h : Blocks32 n) :
    bn_value n < 2 ^ (32 * n.length) := by
  induction n with
  | nil => simp [bn_value]
  | cons b rest ih =>
    have hb : b < 2 ^ 32 := h b (by simp)
    have hr : bn_value rest < 2 ^ (32 * rest.length) :=
      ih (fun x hx => h x (by simp [hx]))
    have : b + 2 ^ 32 * bn_value rest + 1 ≤ 2 ^ 32 * 2 ^ (32 * rest.length) := by
      calc b + 2 ^ 32 * bn_value rest + 1
          ≤ 2 ^ 32 * bn_value rest + 2 ^ 32 := by omega
        _ = 2 ^ 32 * (bn_value rest + 1) := by ring
        _ ≤ 2 ^ 32 * 2 ^ (32 * rest.length) := by
            exact Nat.mul_le_mul_left _ (by omega)
    calc bn_value (b :: rest) = b + 2 ^ 32 * bn_value rest := rfl
      _ < 2 ^ 32 * 2 ^ (32 * rest.length) := by omega
      _ = 2 ^ (32 * (rest.length + 1)) := by rw [← pow_add]; ring_nf
      _ = 2 ^ (32 * (b :: rest).length) := by simp

theorem valFrom_lt {n : List Nat} (h : Blocks32 n) (o : Nat) :
    valFrom n o < 2 ^ (32 * (n.length - o)) := by
  have hb : Blocks32 (n.drop o) := fun x hx => h x (List.mem_of_mem_drop hx)
  have := bn_value_lt hb
  simpa [valFrom, List.length_drop] using this

theorem bn_value_take_succ (n : List Nat) (k : Nat) :
    bn_value (n.take (k + 1)) =
      bn_value (n.take k) + bn_get_block n k * 2 ^ (32 * k) := by
  induction n generalizing k with
  | nil => simp [bn_value, bn_get_block]
  | cons b rest ih =>
    cases k with
    | zero => simp [bn_value, bn_get_block]
    | succ k =>
      simp only [List.take_succ_cons, bn_value, bn_get_block, ih k]
      rw [show 32 * (k + 1) = 32 * k + 32 by ring, pow_add]
      ring

theorem bn_value_take_add (n : List Nat) (o : Nat) :
    bn_value n = bn_value (n.take o) + 2 ^ (32 * o) * valFrom n o := by
  induction n generalizing o with
  | nil => simp [bn_value, valFrom]
  | cons b rest ih =>
    cases o with
    | zero => simp [bn_value, valFrom]
    | succ o =>
      simp only [List.take_succ_cons, bn_value, valFrom, List.drop_succ_cons]
      have h := ih o
      rw [valFrom] at h
      rw [h, show 32 * (o + 1) = 32 * o + 32 by ring, pow_add]
      ring

/-! ### Lemmas about `bn_set` and `bn_write_block` -/

theorem bn_set_length (n : List Nat) (o v : Nat) :
    (bn_set n o v).length = n.length := by
  induction n generalizing o with
  | nil => simp [bn_set]
  | cons b rest ih =>
    cases o with
    | zero => simp [bn_set]
    | succ o => simp [bn_set, ih]

theorem bn_set_take_succ (v : Nat) :
    ∀ (n : List Nat) (o : Nat), o < n.length →
      (bn_set n o v).take (o + 1) = n.take o ++ [v] := by
  intro n
  induction n with
  | nil => intro o h; simp at h
  | cons b rest ih =>
    intro o h
    cases o with
    | zero => simp [bn_set]
    | succ o =>
      simp only [bn_set, List.take_succ_cons, List.cons_append]
      rw [ih o (by simpa using h)]

theorem bn_set_drop_of_lt (v : Nat) :
    ∀ (n : List Nat) (o k : Nat), o < k →
      (bn_set n o v).drop k = n.drop k := by
  intro n
  induction n with
  | nil => intro o k h; simp [bn_set]
  | cons b rest ih =>
    intro o k h
    cases o with
    | zero =>
      cases k with
      | zero => omega
      | succ k => simp [bn_set]
    | succ o =>
      cases k with
      | zero => omega
      | succ k => simpa [bn_set] using ih o k (by omega)

theorem bn_set_drop_self (v : Nat) :
    ∀ (n : List Nat) (o : Nat), o < n.length →
      (bn_set n o v).drop o = v :: n.drop (o + 1) := by
  intro n
  induction n with
  | nil => intro o h; simp at h
  | cons b rest ih =>
    intro o h
    cases o with
    | zero => simp [bn_set]
    | succ o => simpa [bn_set] using ih o (by simpa using h)

theorem bn_set_blocks32 {v : Nat} (hv : v < 2 ^ 32) :
    ∀ (n : List Nat) (o : Nat), Blocks32 n → Blocks32 (bn_set n o v) := by
  intro n
  induction n with
  | nil => intro o h; simpa [bn_set] using h
  | cons b rest ih =>
    intro o h
    cases o with
    | zero =>
      intro x hx
      rcases List.mem_cons.mp hx with rfl | hx
      · exact hv
      · exact h x (by simp [hx])
    | succ o =>
      intro x hx
      rcases List.mem_cons.mp hx with rfl | hx
      · exact h x (by simp)
      · exact ih o (fun y hy => h y (by simp [hy])) x hx

theorem bn_write_block_ok {n : List Nat} {o : Nat} (h : o < n.length) (v : Nat) :
    bn_write_block n o v = .ok (bn_set n o v) := by
  simp [bn_write_block, h]

/-! ### Values of reversed lists -/

theorem bn_value_append_singleton (l : List Nat) (b : Nat) :
    bn_value (l ++ [b]) = bn_value l + b * 2 ^ (32 * l.length) := by
  induction l with
  | nil => simp [bn_value]
  | cons a rest ih =>
    rw [List.cons_append]
    simp only [bn_value, List.length_cons]
    rw [ih, show 32 * (rest.length + 1) = 32 * rest.length + 32 by ring, pow_add]
    ring

theorem bn_value_reverse (l : List Nat) : bn_value l.reverse = msValue l := by
  induction l with
  | nil => simp [bn_value, msValue]
  | cons b rest ih =>
    simp only [List.reverse_cons, bn_value_append_singleton, msValue, ih,
      List.length_reverse]
    ring

theorem msValue_reverse (n : List Nat) : msValue n.reverse = bn_value n := by
  rw [← bn_value_reverse, List.reverse_reverse]

theorem msValue_lt {l : List Nat} (h : Blocks32 l) :
    msValue l < 2 ^ (32 * l.length) := by
  have := bn_value_lt (n := l.reverse) (fun x hx => h x (List.mem_reverse.mp hx))
  simpa [bn_value_reverse, List.length_reverse] using this

/-! ### Trimming -/

theorem msTrim_nil : msTrim [] = [] := rfl

theorem msTrim_singleton (b : Nat) : msTrim [b] = [b] := rfl

theorem msTrim_cons_cons (b c : Nat) (rest : List Nat) :
    msTrim (b :: c :: rest) = if b = 0 then msTrim (c :: rest) else b :: c :: rest := rfl

theorem msTrim_msValue (l : List Nat) : msValue (msTrim l) = msValue l := by
  induction l with
  | nil => rfl
  | cons b rest ih =>
    cases rest with
    | nil => rfl
    | cons c rs =>
      rw [msTrim_cons_cons]
      by_cases hb : b = 0
      · subst hb
        rw [if_pos rfl, ih]
        simp [msValue]
      · rw [if_neg hb]

theorem msTrim_ne_nil {l : List Nat} (h : l ≠ []) : msTrim l ≠ [] := by
  induction l with
  | nil => exact absurd rfl h
  | cons b rest ih =>
    cases rest with
    | nil => simp [msTrim_singleton]
    | cons c rs =>
      rw [msTrim_cons_cons]
      by_cases hb : b = 0
      · rw [if_pos hb]; exact ih (by simp)
      · rw [if_neg hb]; simp

theorem msTrim_headD {l : List Nat} (h : l ≠ []) :
    (msTrim l).length = 1 ∨ (msTrim l).headD 0 ≠ 0 := by
  induction l with
  | nil => exact absurd rfl h
  | cons b rest ih =>
    cases rest with
    | nil => left; rfl
    | cons c rs =>
      rw [msTrim_cons_cons]
      by_cases hb : b = 0
      · rw [if_pos hb]; exact ih (by simp)
      · rw [if_neg hb]; right; simpa using hb

theorem msTrim_mem {l : List Nat} {x : Nat} (h : x ∈ msTrim l) : x ∈ l := by
  induction l with
  | nil => simpa [msTrim_nil] using h
  | cons b rest ih =>
    cases rest with
    | nil => simpa [msTrim_singleton] using h
    | cons c rs =>
      rw [msTrim_cons_cons] at h
      by_cases hb : b = 0
      · rw [if_pos hb] at h; exact List.mem_cons_of_mem _ (ih h)
      · rwa [if_neg hb] at h

theorem msTrim_of_headD_ne {l : List Nat} (hne : l ≠ []) (h : l.headD 0 ≠ 0) :
    msTrim l = l := by
  cases l with
  | nil => exact absurd rfl hne
  | cons b rest =>
    cases rest with
    | nil => rfl
    | cons c rs =>
      rw [msTrim_cons_cons, if_neg (by simpa using h)]

theorem bn_trim_value (n : List Nat) : bn_value (bn_trim n) = bn_value n := by
  rw [bn_trim, bn_value_reverse, msTrim_msValue, msValue_reverse]

theorem bn_trim_ne_nil {n : List Nat} (h : n ≠ []) : bn_trim n ≠ [] := by
  rw [bn_trim]
  simpa using msTrim_ne_nil (l := n.reverse) (by simpa using h)

theorem headD_reverse (l : List Nat) : l.reverse.headD 0 = l.getLastD 0 := by
  rw [List.headD_eq_head?, List.getLastD_eq_getLast?, List.getLast?_eq_head?_reverse]

theorem bn_trim_canonical {n : List Nat} (h : n ≠ []) : bn_canonical (bn_trim n) := by
  refine ⟨bn_trim_ne_nil h, ?_⟩
  have hrev : n.reverse ≠ [] := by simpa using h
  rcases msTrim_headD hrev with h1 | h1
  · left; simpa [bn_trim] using h1
  · right
    rw [bn_trim, ← headD_reverse, List.reverse_reverse]
    exact h1

theorem bn_trim_blocks32 {n : List Nat} (h : Blocks32 n) : Blocks32 (bn_trim n) := by
  intro x hx
  rw [bn_trim, List.mem_reverse] at hx
  exact h x (List.mem_reverse.mp (msTrim_mem hx))

theorem bn_trim_of_canonical {n : List Nat} (h : bn_canonical n) : bn_trim n = n := by
  obtain ⟨hne, hc⟩ := h
  rw [bn_trim]
  rcases hc with h1 | h1
  · match n, h1 with
    | [b], _ => rfl
  · rw [msTrim_of_headD_ne (by simpa using hne) (by rwa [headD_reverse]),
      List.reverse_reverse]

/-! ### Canonical values and comparison -/

theorem valFrom_length_sub_one : ∀ (n : List Nat), n ≠ [] →
    valFrom n (n.length - 1) = n.getLastD 0 := by
  intro n
  induction n with
  | nil => intro h; exact absurd rfl h
  | cons b rest ih =>
    intro _
    cases rest with
    | nil => simp [valFrom, bn_value]
    | cons c rs =>
      have h1 := ih (by simp)
      simp only [List.length_cons, Nat.add_sub_cancel] at h1 ⊢
      have h2 : valFrom (b :: c :: rs) (rs.length + 1) = valFrom (c :: rs) rs.length := rfl
      rw [h2, h1]
      simp [List.getLastD_cons]

theorem bn_canonical_value_ge {n : List Nat} (hc : bn_canonical n)
    (hlen : 2 ≤ n.length) : 2 ^ (32 * (n.length - 1)) ≤ bn_value n := by
  obtain ⟨hne, h1⟩ := hc
  rcases h1 with h1 | h1
  · omega
  · have hv := bn_value_take_add n (n.length - 1)
    have hvf : valFrom n (n.length - 1) = n.getLastD 0 := valFrom_length_sub_one n hne
    rw [hvf] at hv
    have : 1 ≤ n.getLastD 0 := Nat.one_le_iff_ne_zero.mpr h1
    calc 2 ^ (32 * (n.length - 1))
        ≤ 2 ^ (32 * (n.length - 1)) * n.getLastD 0 := Nat.le_mul_of_pos_right _ this
      _ ≤ bn_value n := by omega

theorem bn_canonical_zero_iff {n : List Nat} (hc : bn_canonical n) :
    bn_value n = 0 ↔ n = [0] := by
  constructor
  · intro hv
    rcases Nat.lt_or_ge n.length 2 with hlen | hlen
    · cases n with
      | nil => exact absurd rfl hc.1
      | cons b rest =>
        cases rest with
        | nil =>
          simp [bn_value] at hv
          simp [hv]
        | cons c rs => simp only [List.length_cons] at hlen; omega
    · have hge := bn_canonical_value_ge hc hlen
      have hpos : 0 < 2 ^ (32 * (n.length - 1)) := Nat.two_pow_pos _
      omega
  · intro h; subst h; rfl

theorem cmpMS_eq_zero_iff : ∀ l1 l2 : List Nat, l1.length = l2.length →
    (cmpMS l1 l2 = 0 ↔ l1 = l2) := by
  intro l1
  induction l1 with
  | nil =>
    intro l2 hlen
    cases l2 with
    | nil => simp [cmpMS]
    | cons b bs => simp at hlen
  | cons a as ih =>
    intro l2 hlen
    cases l2 with
    | nil => simp at hlen
    | cons b bs =>
      simp only [cmpMS]
      by_cases hab : a > b
      · rw [if_pos hab]
        constructor
        · intro h; exact absurd h (by norm_num)
        · intro h
          injection h with h1 h2
          omega
      · rw [if_neg hab]
        by_cases hba : a < b
        · rw [if_pos hba]
          constructor
          · intro h; exact absurd h (by norm_num)
          · intro h
            injection h with h1 h2
            omega
        · rw [if_neg hba]
          have hab2 : a = b := by omega
          subst hab2
          rw [ih bs (by simpa using hlen)]
          constructor
          · intro h; rw [h]
          · intro h; injection h

theorem cmpMS_correct : ∀ l1 l2 : List Nat, l1.length = l2.length →
    Blocks32 l1 → Blocks32 l2 →
    cmpMS l1 l2 = if msValue l2 < msValue l1 then 1
      else if msValue l1 < msValue l2 then -1 else 0 := by
  intro l1
  induction l1 with
  | nil =>
    intro l2 hlen h1 h2
    cases l2 with
    | nil => simp [cmpMS, msValue]
    | cons b bs => simp at hlen
  | cons a as ih =>
    intro l2 hlen h1 h2
    cases l2 with
    | nil => simp at hlen
    | cons b bs =>
      have hlen2 : as.length = bs.length := by simpa using hlen
      have has : Blocks32 as := fun x hx => h1 x (by simp [hx])
      have hbs : Blocks32 bs := fun x hx => h2 x (by simp [hx])
      have hva : msValue as < 2 ^ (32 * as.length) := msValue_lt has
      have hvb : msValue bs < 2 ^ (32 * bs.length) := msValue_lt hbs
      simp only [cmpMS, msValue, hlen2]
      by_cases hab : a > b
      · rw [if_pos hab]
        have : msValue bs + b * 2 ^ (32 * bs.length) < a * 2 ^ (32 * bs.length) + msValue as := by
          have h1 : b * 2 ^ (32 * bs.length) + 2 ^ (32 * bs.length) ≤ a * 2 ^ (32 * bs.length) := by
            have : (b + 1) * 2 ^ (32 * bs.length) ≤ a * 2 ^ (32 * bs.length) :=
              Nat.mul_le_mul_right _ (by omega)
            calc b * 2 ^ (32 * bs.length) + 2 ^ (32 * bs.length)
                = (b + 1) * 2 ^ (32 * bs.length) := by ring
              _ ≤ a * 2 ^ (32 * bs.length) := this
          omega
        rw [if_pos (by omega)]
      · rw [if_neg hab]
        by_cases hba : a < b
        · rw [if_pos hba]
          have : msValue as + a * 2 ^ (32 * bs.length) < b * 2 ^ (32 * bs.length) + msValue bs := by
            have h1 : a * 2 ^ (32 * bs.length) + 2 ^ (32 * bs.length) ≤ b * 2 ^ (32 * bs.length) := by
              have : (a + 1) * 2 ^ (32 * bs.length) ≤ b * 2 ^ (32 * bs.length) :=
                Nat.mul_le_mul_right _ (by omega)
              calc a * 2 ^ (32 * bs.length) + 2 ^ (32 * bs.length)
                  = (a + 1) * 2 ^ (32 * bs.length) := by ring
                _ ≤ b * 2 ^ (32 * bs.length) := this
            rw [hlen2] at hva
            omega
          rw [if_neg (by omega), if_pos (by omega)]
        · have hab2 : a = b := by omega
          subst hab2
          rw [if_neg hba, ih bs hlen2 has hbs]
          by_cases hlt : msValue bs < msValue as
          · rw [if_pos hlt, if_pos (by omega)]
          · rw [if_neg hlt]
            by_cases hgt : msValue as < msValue bs
            · rw [if_pos hgt, if_neg (by omega), if_pos (by omega)]
            · rw [if_neg hgt, if_neg (by omega), if_neg (by omega)]

theorem bn_compare_correct {n1 n2 : List Nat} (hc1 : bn_canonical n1)
    (hc2 : bn_canonical n2) (hb1 : Blocks32 n1) (hb2 : Blocks32 n2) :
    bn_compare n1 n2 = if bn_value n2 < bn_value n1 then 1
      else if bn_value n1 < bn_value n2 then -1 else 0 := by
  rw [bn_compare]
  rcases Nat.lt_trichotomy n1.length n2.length with hlen | hlen | hlen
  · have h2big : 2 ^ (32 * (n2.length - 1)) ≤ bn_value n2 := by
      apply bn_canonical_value_ge hc2
      have := List.length_pos.mpr hc1.1
      omega
    have h1small : bn_value n1 < 2 ^ (32 * n1.length) := bn_value_lt hb1
    have hle : 2 ^ (32 * n1.length) ≤ 2 ^ (32 * (n2.length - 1)) :=
      Nat.pow_le_pow_right (by norm_num) (by omega)
    rw [if_neg (by omega), if_pos hlen, if_neg (by omega), if_pos (by omega)]
  · rw [if_neg (by omega), if_neg (by omega)]
    rw [cmpMS_correct n1.reverse n2.reverse (by simpa using hlen)
      (fun x hx => hb1 x (List.mem_reverse.mp hx))
      (fun x hx => hb2 x (List.mem_reverse.mp hx))]
    rw [msValue_reverse, msValue_reverse]
  · have h1big : 2 ^ (32 * (n1.length - 1)) ≤ bn_value n1 := by
      apply bn_canonical_value_ge hc1
      have := List.length_pos.mpr hc2.1
      omega
    have h2small : bn_value n2 < 2 ^ (32 * n2.length) := bn_value_lt hb2
    have hle : 2 ^ (32 * n2.length) ≤ 2 ^ (32 * (n1.length - 1)) :=
      Nat.pow_le_pow_right (by norm_num) (by omega)
    rw [if_pos hlen, if_pos (by omega)]

theorem bn_compare_eq_zero_iff (n1 n2 : List Nat) :
    bn_compare n1 n2 = 0 ↔ n1 = n2 := by
  rw [bn_compare]
  rcases Nat.lt_trichotomy n1.length n2.length with hlen | hlen | hlen
  · rw [if_neg (by omega), if_pos hlen]
    constructor
    · intro h; exact absurd h (by norm_num)
    · intro h; subst h; omega
  · rw [if_neg (by omega), if_neg (by omega)]
    rw [cmpMS_eq_zero_iff _ _ (by simpa using hlen)]
    constructor
    · intro h; exact List.reverse_injective h
    · intro h; rw [h]
  · rw [if_pos hlen]
    constructor
    · intro h; exact absurd h (by norm_num)
    · intro h; subst h; omega

theorem bn_value_injective {n1 n2 : List Nat} (hc1 : bn_canonical n1)
    (hc2 : bn_canonical n2) (hb1 : Blocks32 n1) (hb2 : Blocks32 n2)
    (h : bn_value n1 = bn_value n2) : n1 = n2 := by
  have := bn_compare_correct hc1 hc2 hb1 hb2
  rw [if_neg (by omega), if_neg (by omega)] at this
  exact (bn_compare_eq_zero_iff n1 n2).mp this

theorem bn_greater_than_correct {n1 n2 : List Nat} (hc1 : bn_canonical n1)
    (hc2 : bn_canonical n2) (hb1 : Blocks32 n1) (hb2 : Blocks32 n2) :
    bn_greater_than n1 n2 = decide (bn_value n2 < bn_value n1) := by
  rw [bn_greater_than, bn_compare_correct hc1 hc2 hb1 hb2]
  by_cases h : bn_value n2 < bn_value n1
  · rw [if_pos h]; simp [h]
  · rw [if_neg h]
    by_cases h2 : bn_value n1 < bn_value n2
    · rw [if_pos h2]; simp [h, h2]
    · rw [if_neg h2]; simp [h]

theorem bn_less_than_correct {n1 n2 : List Nat} (hc1 : bn_canonical n1)
    (hc2 : bn_canonical n2) (hb1 : Blocks32 n1) (hb2 : Blocks32 n2) :
    bn_less_than n1 n2 = decide (bn_value n1 < bn_value n2) := by
  rw [bn_less_than, bn_compare_correct hc1 hc2 hb1 hb2]
  by_cases h : bn_value n2 < bn_value n1
  · rw [if_pos h]; simp [h]; omega
  · rw [if_neg h]
    by_cases h2 : bn_value n1 < bn_value n2
    · rw [if_pos h2]; simp [h2]
    · rw [if_neg h2]; simp [h2]

/-! ### Correctness of `bn_add` -/

theorem addBlocks_zero (n1 n2 : List Nat) (t o : Nat) :
    addBlocks n1 n2 t o 0 = [] := rfl

theorem addBlocks_succ (n1 n2 : List Nat) (t o c : Nat) :
    addBlocks n1 n2 t o (c + 1) =
      ((t + bn_get_block n1 o + bn_get_block n2 o) % 2 ^ 64 % 2 ^ 32) ::
        addBlocks n1 n2
          (if (t + bn_get_block n1 o + bn_get_block n2 o) % 2 ^ 64 % 2 ^ 32
              = (t + bn_get_block n1 o + bn_get_block n2 o) % 2 ^ 64 then 0 else 1)
          (o + 1) c := rfl

theorem addBlocks_length (n1 n2 : List Nat) :
    ∀ c t o, (addBlocks n1 n2 t o c).length = c := by
  intro c
  induction c with
  | zero => intro t o; rfl
  | succ c ih =>
    intro t o
    rw [addBlocks_succ]
    simp [ih]

theorem addBlocks_blocks32 (n1 n2 : List Nat) :
    ∀ c t o, Blocks32 (addBlocks n1 n2 t o c) := by
  intro c
  induction c with
  | zero => intro t o x hx; simp [addBlocks_zero] at hx
  | succ c ih =>
    intro t o x hx
    rw [addBlocks_succ] at hx
    rcases List.mem_cons.mp hx with rfl | hx
    · exact Nat.mod_lt _ (by norm_num)
    · exact ih _ _ x hx

theorem addWriteLoop_eq (n1 n2 : List Nat) :
    ∀ c t o (result : List Nat), o + c = result.length →
      addWriteLoop n1 n2 t o c result =
        .ok (result.take o ++ addBlocks n1 n2 t o c) := by
  intro c
  induction c with
  | zero =>
    intro t o result h
    rw [addBlocks_zero, List.append_nil]
    have : o = result.length := by omega
    rw [addWriteLoop, this, List.take_length]
  | succ c ih =>
    intro t o result h
    have hlt : o < result.length := by omega
    simp only [addWriteLoop, bn_write_block_ok hlt]
    rw [ih _ (o + 1) _ (by rw [bn_set_length]; omega)]
    rw [addBlocks_succ]
    rw [bn_set_take_succ _ _ _ hlt]
    simp

theorem addBlocks_value (n1 n2 : List Nat) (hb1 : Blocks32 n1) (hb2 : Blocks32 n2) :
    ∀ c t o, t ≤ 1 →
      t + valFrom n1 o + valFrom n2 o < 2 ^ (32 * c) →
      bn_value (addBlocks n1 n2 t o c) = t + valFrom n1 o + valFrom n2 o := by
  intro c
  induction c with
  | zero =>
    intro t o ht hfit
    rw [addBlocks_zero]
    simp only [Nat.mul_zero, pow_zero] at hfit
    simp only [bn_value]
    omega
  | succ c ih =>
    intro t o ht hfit
    have hg1 : bn_get_block n1 o < 2 ^ 32 := bn_get_block_lt hb1 o
    have hg2 : bn_get_block n2 o < 2 ^ 32 := bn_get_block_lt hb2 o
    set s0 := t + bn_get_block n1 o + bn_get_block n2 o with hs0
    have hs64 : s0 < 2 ^ 64 := by
      have : (2:Nat) ^ 32 ≤ 2 ^ 64 := Nat.pow_le_pow_right (by norm_num) (by norm_num)
      have h1 : (2:Nat) ^ 32 = 4294967296 := by norm_num
      have h2 : (2:Nat) ^ 64 = 18446744073709551616 := by norm_num
      omega
    have hmod64 : s0 % 2 ^ 64 = s0 := Nat.mod_eq_of_lt hs64
    rw [addBlocks_succ, hmod64]
    have hceq : (if s0 % 2 ^ 32 = s0 then 0 else 1) = s0 / 2 ^ 32 := by
      by_cases hlt : s0 < 2 ^ 32
      · rw [if_pos (Nat.mod_eq_of_lt hlt), Nat.div_eq_of_lt hlt]
      · have hge : 2 ^ 32 ≤ s0 := by omega
        have hmodlt : s0 % 2 ^ 32 < 2 ^ 32 := Nat.mod_lt _ (by norm_num)
        rw [if_neg (by omega)]
        have hsmall : s0 < 2 ^ 32 * 2 := by
          have h1 : (2:Nat) ^ 32 = 4294967296 := by norm_num
          omega
        have := Nat.div_lt_of_lt_mul (by omega : s0 < 2 ^ 32 * 2)
        have hpos : 1 ≤ s0 / 2 ^ 32 := (Nat.one_le_div_iff (by norm_num)).mpr hge
        omega
    rw [hceq]
    have hv1 := valFrom_succ n1 o
    have hv2 := valFrom_succ n2 o
    set X1 := valFrom n1 (o + 1) with hX1
    set X2 := valFrom n2 (o + 1) with hX2
    have hfit2 : s0 + 2 ^ 32 * (X1 + X2) < 2 ^ 32 * 2 ^ (32 * c) := by
      have hexp : (2:Nat) ^ (32 * (c + 1)) = 2 ^ (32 * c) * 2 ^ 32 := by
        rw [← pow_add]; ring_nf
      rw [hexp] at hfit
      rw [hv1, hv2] at hfit
      have : t + (bn_get_block n1 o + 2 ^ 32 * X1) + (bn_get_block n2 o + 2 ^ 32 * X2)
          = s0 + 2 ^ 32 * (X1 + X2) := by rw [hs0]; ring
      omega
    have hdm := Nat.div_add_mod s0 (2 ^ 32)
    have hfitrec : s0 / 2 ^ 32 + X1 + X2 < 2 ^ (32 * c) := by
      by_contra hcon
      push_neg at hcon
      have : 2 ^ 32 * 2 ^ (32 * c) ≤ 2 ^ 32 * (s0 / 2 ^ 32 + X1 + X2) :=
        Nat.mul_le_mul_left _ hcon
      have hexpand : 2 ^ 32 * (s0 / 2 ^ 32 + X1 + X2)
          = 2 ^ 32 * (s0 / 2 ^ 32) + 2 ^ 32 * (X1 + X2) := by ring
      omega
    have hrec := ih _ (o + 1) (by omega : s0 / 2 ^ 32 ≤ 1) hfitrec
    · rw [bn_value, hrec, hv1, hv2]
      have hmodlt : s0 % 2 ^ 32 < 2 ^ 32 := Nat.mod_lt _ (by norm_num)
      have : s0 % 2 ^ 32 + 2 ^ 32 * (s0 / 2 ^ 32 + X1 + X2)
          = 2 ^ 32 * (s0 / 2 ^ 32) + s0 % 2 ^ 32 + 2 ^ 32 * X1 + 2 ^ 32 * X2 := by ring
      rw [this, hdm, hs0]
      ring

theorem bn_add_eq (n1 n2 : List Nat) :
    bn_add n1 n2 = .ok (bn_trim (addBlocks n1 n2 0 0
      ((if n2.length < n1.length then n1.length else n2.length) + 1))) := by
  simp only [bn_add]
  rw [addWriteLoop_eq n1 n2 _ 0 0 _ (by simp [bn_with_len])]
  simp

theorem bn_add_spec {n1 n2 : List Nat} (hb1 : Blocks32 n1) (hb2 : Blocks32 n2) :
    ∃ r, bn_add n1 n2 = .ok r ∧ bn_value r = bn_value n1 + bn_value n2 ∧
      bn_canonical r ∧ Blocks32 r := by
  set L := (if n2.length < n1.length then n1.length else n2.length) + 1 with hL
  refine ⟨bn_trim (addBlocks n1 n2 0 0 L), bn_add_eq n1 n2, ?_, ?_, ?_⟩
  · rw [bn_trim_value]
    have hfit : 0 + valFrom n1 0 + valFrom n2 0 < 2 ^ (32 * L) := by
      have h1 : bn_value n1 < 2 ^ (32 * n1.length) := bn_value_lt hb1
      have h2 : bn_value n2 < 2 ^ (32 * n2.length) := bn_value_lt hb2
      have hle1 : (2:Nat) ^ (32 * n1.length) ≤ 2 ^ (32 * (L - 1)) := by
        apply Nat.pow_le_pow_right (by norm_num)
        rw [hL]
        by_cases h : n2.length < n1.length
        · rw [if_pos h]; omega
        · rw [if_neg h]; omega
      have hle2 : (2:Nat) ^ (32 * n2.length) ≤ 2 ^ (32 * (L - 1)) := by
        apply Nat.pow_le_pow_right (by norm_num)
        rw [hL]
        by_cases h : n2.length < n1.length
        · rw [if_pos h]; omega
        · rw [if_neg h]; omega
      have hdouble : (2:Nat) ^ (32 * (L - 1)) + 2 ^ (32 * (L - 1)) ≤ 2 ^ (32 * L) := by
        have hstep : (2:Nat) ^ (32 * (L - 1)) * 2 ≤ 2 ^ (32 * (L - 1)) * 2 ^ 32 := by
          apply Nat.mul_le_mul_left
          norm_num
        have hexp : (2:Nat) ^ (32 * (L - 1)) * 2 ^ 32 = 2 ^ (32 * (L - 1) + 32) := by
          rw [pow_add]
        have hLL : 32 * (L - 1) + 32 = 32 * L := by
          have : 1 ≤ L := by rw [hL]; omega
          omega
        rw [hLL] at hexp
        omega
      simp only [valFrom_zero]
      omega
    rw [addBlocks_value n1 n2 hb1 hb2 L 0 0 (by omega) hfit]
    simp [valFrom_zero]
  · apply bn_trim_canonical
    have := addBlocks_length n1 n2 L 0 0
    intro hnil
    rw [hnil] at this
    simp at this
    omega
  · exact bn_trim_blocks32 (addBlocks_blocks32 n1 n2 L 0 0)

/-! ### Subtraction -/

/-- One step of the `bn_subtract` loop: the block written at `offset`
(borrow handling exactly as in the C body). -/
def subDiff (n1 n2 : List Nat) (transfer offset : Nat) : Nat :=
  let n1_block := bn_get_block n1 offset
  let n2b := bn_get_block n2 offset
  let n2_block := if transfer ≠ 0 then (n2b + transfer) % 2 ^ 32 else n2b
  if n2_block ≤ n1_block then n1_block - n2_block
  else 4294967295 - n2_block + 1 + n1_block

/-- One step of the `bn_subtract` loop: the borrow passed to the next block. -/
def subTransfer (n1 n2 : List Nat) (transfer offset : Nat) : Nat :=
  let n1_block := bn_get_block n1 offset
  let n2b := bn_get_block n2 offset
  let n2_block := if transfer ≠ 0 then (n2b + transfer) % 2 ^ 32 else n2b
  if n2_block ≤ n1_block then
    if transfer ≠ 0 then (if n2_block ≠ 0 then 0 else transfer) else transfer
  else 1

/-- The block list produced by the `bn_subtract` loop. -/
def subBlocks (n1 n2 : List Nat) (transfer offset count : Nat) : List Nat :=
  match count with
  | 0 => []
  | c + 1 => subDiff n1 n2 transfer offset ::
      subBlocks n1 n2 (subTransfer n1 n2 transfer offset) (offset + 1) c

/-- The write loop of `bn_subtract`, iterating `count` offsets into `result`. -/
def subWriteLoop (n1 n2 : List Nat) (transfer offset count : Nat) (result : List Nat) :
    Except BnError (List Nat) :=
  match count with
  | 0 => .ok result
  | c + 1 =>
    match bn_write_block result offset (subDiff n1 n2 transfer offset) with
    | .error e => .error e
    | .ok result' =>
      subWriteLoop n1 n2 (subTransfer n1 n2 transfer offset) (offset + 1) c result'

/-- `bn_subtract`: fails with `negativeResult` when n2 > n1 (by `bn_compare`),
otherwise subtracts block-wise with borrow into a buffer of length len(n1)
and trims. -/
def bn_subtract (n1 n2 : List Nat) : Except BnError (List Nat) :=
  if bn_greater_than n2 n1 then .error .negativeResult
  else
    match subWriteLoop n1 n2 0 0 n1.length (bn_with_len n1.length) with
    | .error e => .error e
    | .ok r => .ok (bn_trim r)

theorem subBlocks_zero (n1 n2 : List Nat) (t o : Nat) :
    subBlocks n1 n2 t o 0 = [] := rfl

theorem subBlocks_succ (n1 n2 : List Nat) (t o c : Nat) :
    subBlocks n1 n2 t o (c + 1) = subDiff n1 n2 t o ::
      subBlocks n1 n2 (subTransfer n1 n2 t o) (o + 1) c := rfl

theorem subBlocks_length (n1 n2 : List Nat) :
    ∀ c t o, (subBlocks n1 n2 t o c).length = c := by
  intro c
  induction c with
  | zero => intro t o; rfl
  | succ c ih =>
    intro t o
    rw [subBlocks_succ]
    simp [ih]

theorem subDiff_lt (n1 n2 : List Nat) (hb1 : Blocks32 n1) (hb2 : Blocks32 n2)
    (t o : Nat) : subDiff n1 n2 t o < 2 ^ 32 := by
  have hg1 : bn_get_block n1 o < 2 ^ 32 := bn_get_block_lt hb1 o
  have hg2 : bn_get_block n2 o < 2 ^ 32 := bn_get_block_lt hb2 o
  have h32 : (2:Nat) ^ 32 = 4294967296 := by norm_num
  simp only [subDiff]
  by_cases ht : t ≠ 0
  · rw [if_pos ht]
    have hmod : (bn_get_block n2 o + t) % 2 ^ 32 < 2 ^ 32 := Nat.mod_lt _ (by norm_num)
    by_cases hle : (bn_get_block n2 o + t) % 2 ^ 32 ≤ bn_get_block n1 o
    · rw [if_pos hle]; omega
    · rw [if_neg hle]; omega
  · rw [if_neg ht]
    by_cases hle : bn_get_block n2 o ≤ bn_get_block n1 o
    · rw [if_pos hle]; omega
    · rw [if_neg hle]; omega

theorem subBlocks_blocks32 (n1 n2 : List Nat) (hb1 : Blocks32 n1) (hb2 : Blocks32 n2) :
    ∀ c t o, Blocks32 (subBlocks n1 n2 t o c) := by
  intro c
  induction c with
  | zero => intro t o x hx; simp [subBlocks_zero] at hx
  | succ c ih =>
    intro t o x hx
    rw [subBlocks_succ] at hx
    rcases List.mem_cons.mp hx with rfl | hx
    · exact subDiff_lt n1 n2 hb1 hb2 t o
    · exact ih _ _ x hx

theorem subWriteLoop_eq (n1 n2 : List Nat) :
    ∀ c t o (result : List Nat), o + c = result.length →
      subWriteLoop n1 n2 t o c result =
        .ok (result.take o ++ subBlocks n1 n2 t o c) := by
  intro c
  induction c with
  | zero =>
    intro t o result h
    rw [subBlocks_zero, List.append_nil]
    have : o = result.length := by omega
    rw [subWriteLoop, this, List.take_length]
  | succ c ih =>
    intro t o result h
    have hlt : o < result.length := by omega
    simp only [subWriteLoop, bn_write_block_ok hlt]
    rw [ih _ (o + 1) _ (by rw [bn_set_length]; omega)]
    rw [subBlocks_succ]
    rw [bn_set_take_succ _ _ _ hlt]
    simp

theorem subBlocks_value (n1 n2 : List Nat) (hb1 : Blocks32 n1) (hb2 : Blocks32 n2)
    (hlen : n2.length ≤ n1.length) :
    ∀ c t o, t ≤ 1 → o + c = n1.length →
      valFrom n2 o + t ≤ valFrom n1 o →
      bn_value (subBlocks n1 n2 t o c) + valFrom n2 o + t = valFrom n1 o := by
  intro c
  induction c with
  | zero =>
    intro t o ht hoc hle
    have h1 : valFrom n1 o = 0 := valFrom_of_le_length (by omega)
    have h2 : valFrom n2 o = 0 := valFrom_of_le_length (by omega)
    rw [h1, h2] at hle
    rw [subBlocks_zero, h1, h2]
    simp only [bn_value]
    omega
  | succ c ih =>
    intro t o ht hoc hle
    have hg1 : bn_get_block n1 o < 2 ^ 32 := bn_get_block_lt hb1 o
    have hg2 : bn_get_block n2 o < 2 ^ 32 := bn_get_block_lt hb2 o
    have hv1 := valFrom_succ n1 o
    have hv2 := valFrom_succ n2 o
    have h32 : (2:Nat) ^ 32 = 4294967296 := by norm_num
    rw [h32] at hv1 hv2
    rw [subBlocks_succ, bn_value, h32]
    by_cases htz : t = 0
    · subst htz
      have heff : (if (0:Nat) ≠ 0 then (bn_get_block n2 o + 0) % 2 ^ 32
          else bn_get_block n2 o) = bn_get_block n2 o := by norm_num
      by_cases hcase : bn_get_block n2 o ≤ bn_get_block n1 o
      · have hdiff : subDiff n1 n2 0 o = bn_get_block n1 o - bn_get_block n2 o := by
          simp only [subDiff, heff]
          rw [if_pos hcase]
        have htr : subTransfer n1 n2 0 o = 0 := by
          simp only [subTransfer, heff]
          rw [if_pos hcase]
          norm_num
        have hrec := ih 0 (o + 1) (by omega) (by omega) (by omega)
        rw [hdiff, htr]
        omega
      · have hdiff : subDiff n1 n2 0 o =
            4294967295 - bn_get_block n2 o + 1 + bn_get_block n1 o := by
          simp only [subDiff, heff]
          rw [if_neg hcase]
        have htr : subTransfer n1 n2 0 o = 1 := by
          simp only [subTransfer, heff]
          rw [if_neg hcase]
        have hrec := ih 1 (o + 1) (by omega) (by omega) (by omega)
        rw [hdiff, htr]
        omega
    · have ht1 : t = 1 := by omega
      subst ht1
      have hone : ((1:Nat) ≠ 0) = True := by norm_num
      by_cases hwrap : (bn_get_block n2 o + 1) % 2 ^ 32 = 0
      · have hb2v : bn_get_block n2 o = 4294967295 := by
          rcases Nat.lt_or_ge (bn_get_block n2 o + 1) (2 ^ 32) with hc | hc
          · rw [Nat.mod_eq_of_lt hc] at hwrap; omega
          · omega
        have heff : (if (1:Nat) ≠ 0 then (bn_get_block n2 o + 1) % 2 ^ 32
            else bn_get_block n2 o) = 0 := by
          rw [if_pos (show (1:Nat) ≠ 0 by norm_num)]
          exact hwrap
        have hdiff : subDiff n1 n2 1 o = bn_get_block n1 o := by
          simp only [subDiff, heff]
          rw [if_pos (Nat.zero_le _), Nat.sub_zero]
        have htr : subTransfer n1 n2 1 o = 1 := by
          simp only [subTransfer, heff]
          rw [if_pos (Nat.zero_le _)]
          decide
        have hrec := ih 1 (o + 1) (by omega) (by omega) (by omega)
        rw [hdiff, htr]
        omega
      · have hmod : (bn_get_block n2 o + 1) % 2 ^ 32 = bn_get_block n2 o + 1 := by
          rcases Nat.lt_or_ge (bn_get_block n2 o + 1) (2 ^ 32) with hc | hc
          · exact Nat.mod_eq_of_lt hc
          · have hx : bn_get_block n2 o + 1 = 2 ^ 32 := by omega
            rw [hx] at hwrap
            simp at hwrap
        have heff : (if (1:Nat) ≠ 0 then (bn_get_block n2 o + 1) % 2 ^ 32
            else bn_get_block n2 o) = bn_get_block n2 o + 1 := by
          rw [if_pos (show (1:Nat) ≠ 0 by norm_num)]
          exact hmod
        by_cases hcase : bn_get_block n2 o + 1 ≤ bn_get_block n1 o
        · have hdiff : subDiff n1 n2 1 o =
              bn_get_block n1 o - (bn_get_block n2 o + 1) := by
            simp only [subDiff, heff]
            rw [if_pos hcase]
          have htr : subTransfer n1 n2 1 o = 0 := by
            simp only [subTransfer, heff]
            rw [if_pos hcase, if_pos (show (1:Nat) ≠ 0 by norm_num),
              if_pos (by omega : bn_get_block n2 o + 1 ≠ 0)]
          have hrec := ih 0 (o + 1) (by omega) (by omega) (by omega)
          rw [hdiff, htr]
          omega
        · have hdiff : subDiff n1 n2 1 o =
              4294967295 - (bn_get_block n2 o + 1) + 1 + bn_get_block n1 o := by
            simp only [subDiff, heff]
            rw [if_neg hcase]
          have htr : subTransfer n1 n2 1 o = 1 := by
            simp only [subTransfer, heff]
            rw [if_neg hcase]
          have hrec := ih 1 (o + 1) (by omega) (by omega) (by omega)
          rw [hdiff, htr]
          omega

theorem bn_subtract_eq_err {n1 n2 : List Nat} (h : bn_greater_than n2 n1 = true) :
    bn_subtract n1 n2 = .error .negativeResult := by
  rw [bn_subtract, if_pos h]

theorem bn_subtract_eq_ok {n1 n2 : List Nat} (h : bn_greater_than n2 n1 = false) :
    bn_subtract n1 n2 = .ok (bn_trim (subBlocks n1 n2 0 0 n1.length)) := by
  rw [bn_subtract, if_neg (by simp [h])]
  rw [subWriteLoop_eq n1 n2 _ 0 0 _ (by simp [bn_with_len])]
  simp

theorem bn_canonical_length_le {n1 n2 : List Nat} (hc1 : bn_canonical n1)
    (hc2 : bn_canonical n2) (hb1 : Blocks32 n1)
    (h : bn_value n2 ≤ bn_value n1) : n2.length ≤ n1.length := by
  by_contra hcon
  push_neg at hcon
  have hlen2 : 2 ≤ n2.length := by
    have := List.length_pos.mpr hc1.1
    omega
  have hge := bn_canonical_value_ge hc2 hlen2
  have hlt := bn_value_lt hb1
  have hle : (2:Nat) ^ (32 * n1.length) ≤ 2 ^ (32 * (n2.length - 1)) :=
    Nat.pow_le_pow_right (by norm_num) (by omega)
  omega

theorem bn_subtract_spec {n1 n2 : List Nat} (hc1 : bn_canonical n1)
    (hc2 : bn_canonical n2) (hb1 : Blocks32 n1) (hb2 : Blocks32 n2)
    (h : bn_value n2 ≤ bn_value n1) :
    ∃ d, bn_subtract n1 n2 = .ok d ∧ bn_value d + bn_value n2 = bn_value n1 ∧
      bn_canonical d ∧ Blocks32 d := by
  have hgt : bn_greater_than n2 n1 = false := by
    rw [bn_greater_than_correct hc2 hc1 hb2 hb1]
    simp
    omega
  have hlen : n2.length ≤ n1.length := bn_canonical_length_le hc1 hc2 hb1 h
  refine ⟨bn_trim (subBlocks n1 n2 0 0 n1.length), bn_subtract_eq_ok hgt, ?_, ?_, ?_⟩
  · rw [bn_trim_value]
    have := subBlocks_value n1 n2 hb1 hb2 hlen n1.length 0 0 (by omega) (by omega)
      (by simpa [valFrom_zero] using h)
    simpa [valFrom_zero] using this
  · apply bn_trim_canonical
    have hl := subBlocks_length n1 n2 n1.length 0 0
    have hpos := List.length_pos.mpr hc1.1
    intro hnil
    rw [hnil] at hl
    simp at hl
    omega
  · exact bn_trim_blocks32 (subBlocks_blocks32 n1 n2 hb1 hb2 n1.length 0 0)

/-! ### Multiplication -/

/-- The recursion of `bn_add_block_cascading_unchecked`, made structural on
the number `fuel` of blocks from `offset` to the end of the buffer: when the
carry is still nonzero past the last block, the write's in-bounds assertion
fails, which is exactly the `fuel = 0` case. -/
def bn_cascading_go (n : List Nat) (offset value fuel : Nat) :
    Except BnError (List Nat) :=
  match fuel with
  | 0 => if 0 < value then .error .assertFail else .ok n
  | f + 1 =>
    if 0 < value then
      let lower_half := value % 2 ^ 32
      let upper_half := value / 2 ^ 32 % 2 ^ 32
      let block := bn_get_block n offset
      let block_result_64 := (lower_half + block) % 2 ^ 64
      let block_result_32 := block_result_64 % 2 ^ 32
      match bn_write_block n offset block_result_32 with
      | .error e => .error e
      | .ok n' =>
        bn_cascading_go n' (offset + 1)
          (upper_half + block_result_64 / 2 ^ 32 % 2 ^ 32) f
    else .ok n

/-- `bn_add_block_cascading_unchecked`: adds `value` into block `offset`,
propagating the carry upward until it is exhausted. -/
def bn_add_block_cascading_unchecked (n : List Nat) (offset value : Nat) :
    Except BnError (List Nat) :=
  bn_cascading_go n offset value (n.length - offset)

/-- Inner loop of `bn_multiply`: folds the partial products of block
`n1_offset` of n1 with the next `jcount` blocks of n2 into `result`. -/
def mulLoopJ (n1 n2 : List Nat) (n1_offset n2_offset jcount : Nat) (result : List Nat) :
    Except BnError (List Nat) :=
  match jcount with
  | 0 => .ok result
  | jc + 1 =>
    let block_result := (bn_get_block n1 n1_offset * bn_get_block n2 n2_offset) % 2 ^ 64
    match bn_add_block_cascading_unchecked result (n1_offset + n2_offset) block_result with
    | .error e => .error e
    | .ok result' => mulLoopJ n1 n2 n1_offset (n2_offset + 1) jc result'

/-- Outer loop of `bn_multiply` over the next `icount` blocks of n1. -/
def mulLoopI (n1 n2 : List Nat) (n1_offset icount : Nat) (result : List Nat) :
    Except BnError (List Nat) :=
  match icount with
  | 0 => .ok result
  | ic + 1 =>
    match mulLoopJ n1 n2 n1_offset 0 n2.length result with
    | .error e => .error e
    | .ok result' => mulLoopI n1 n2 (n1_offset + 1) ic result'

/-- `bn_multiply`: schoolbook multiplication into a buffer of
len(n1) + len(n2) blocks, trimmed at the end. -/
def bn_multiply (n1 n2 : List Nat) : Except BnError (List Nat) :=
  match mulLoopI n1 n2 0 n1.length (bn_with_len (n1.length + n2.length)) with
  | .error e => .error e
  | .ok r => .ok (bn_trim r)

theorem bn_set_take_of_le (v : Nat) :
    ∀ (n : List Nat) (o : Nat), (bn_set n o v).take o = n.take o := by
  intro n
  induction n with
  | nil => intro o; simp [bn_set]
  | cons b rest ih =>
    intro o
    cases o with
    | zero => simp
    | succ o => simp [bn_set, ih o]

theorem bn_get_block_set_self (v : Nat) :
    ∀ (n : List Nat) (o : Nat), o < n.length →
      bn_get_block (bn_set n o v) o = v := by
  intro n
  induction n with
  | nil => intro o h; simp at h
  | cons b rest ih =>
    intro o h
    cases o with
    | zero => simp [bn_set, bn_get_block]
    | succ o => simpa [bn_set, bn_get_block] using ih o (by simpa using h)

theorem bn_get_block_of_take_eq {r s : List Nat} {o : Nat}
    (h : r.take (o + 1) = s.take (o + 1)) :
    bn_get_block r o = bn_get_block s o := by
  induction r generalizing s o with
  | nil =>
    cases s with
    | nil => rfl
    | cons c cs => simp at h
  | cons b bs ih =>
    cases s with
    | nil => simp at h
    | cons c cs =>
      cases o with
      | zero =>
        have h1 : b = c := by
          have h2 := congrArg (fun l => l.headD 0) h
          simpa using h2
        simp [bn_get_block, h1]
      | succ o =>
        simp only [List.take_succ_cons] at h
        injection h with h1 h2
        simpa [bn_get_block] using ih h2

theorem bn_cascading_go_spec : ∀ (fuel : Nat) (n : List Nat) (o v : Nat),
    fuel = n.length - o → Blocks32 n → v < 2 ^ 64 →
    valFrom n o + v < 2 ^ (32 * (n.length - o)) →
    ∃ r, bn_cascading_go n o v fuel = .ok r ∧ r.length = n.length ∧
      Blocks32 r ∧ r.take o = n.take o ∧ valFrom r o = valFrom n o + v := by
  intro fuel
  induction fuel with
  | zero =>
    intro n o v hk hb hv64 hfit
    have hlen : n.length ≤ o := by omega
    have h0 : valFrom n o = 0 := valFrom_of_le_length hlen
    rw [h0] at hfit
    have hz : n.length - o = 0 := by omega
    rw [hz] at hfit
    simp only [Nat.mul_zero, pow_zero] at hfit
    have hv0 : v = 0 := by omega
    subst hv0
    refine ⟨n, ?_, rfl, hb, rfl, by omega⟩
    rw [bn_cascading_go]
    simp
  | succ k ih =>
    intro n o v hk hb hv64 hfit
    by_cases hv0 : 0 < v
    case neg =>
      have hz : v = 0 := by omega
      subst hz
      refine ⟨n, ?_, rfl, hb, rfl, by omega⟩
      rw [bn_cascading_go]
      simp
    case pos =>
      have ho : o < n.length := by omega
      have hblock : bn_get_block n o < 2 ^ 32 := bn_get_block_lt hb o
      have h32 : (2:Nat) ^ 32 = 4294967296 := by norm_num
      have h64 : (2:Nat) ^ 64 = 18446744073709551616 := by norm_num
      have hb64 : (v % 2 ^ 32 + bn_get_block n o) % 2 ^ 64
          = v % 2 ^ 32 + bn_get_block n o := by
        apply Nat.mod_eq_of_lt
        have : v % 2 ^ 32 < 2 ^ 32 := Nat.mod_lt _ (by norm_num)
        omega
      -- the value written and the next carry
      set b32 := (v % 2 ^ 32 + bn_get_block n o) % 2 ^ 32 with hb32def
      set vnext := v / 2 ^ 32 % 2 ^ 32 +
        (v % 2 ^ 32 + bn_get_block n o) / 2 ^ 32 % 2 ^ 32 with hvnextdef
      have hupper : v / 2 ^ 32 % 2 ^ 32 = v / 2 ^ 32 := by
        apply Nat.mod_eq_of_lt
        omega
      have hcarry : (v % 2 ^ 32 + bn_get_block n o) / 2 ^ 32 % 2 ^ 32
          = (v % 2 ^ 32 + bn_get_block n o) / 2 ^ 32 := by
        apply Nat.mod_eq_of_lt
        have h1 : v % 2 ^ 32 < 2 ^ 32 := Nat.mod_lt _ (by norm_num)
        have : (v % 2 ^ 32 + bn_get_block n o) / 2 ^ 32 < 2 ^ 32 := by
          apply Nat.div_lt_of_lt_mul
          omega
        omega
      have hkey : b32 + 2 ^ 32 * vnext = bn_get_block n o + v := by
        rw [hb32def, hvnextdef, hupper, hcarry]
        have hdm1 := Nat.div_add_mod (v % 2 ^ 32 + bn_get_block n o) (2 ^ 32)
        have hdm2 := Nat.div_add_mod v (2 ^ 32)
        omega
      have hb32lt : b32 < 2 ^ 32 := Nat.mod_lt _ (by norm_num)
      -- unfold one step of the recursion
      have hstep : bn_cascading_go n o v (k + 1) =
          bn_cascading_go (bn_set n o b32) (o + 1) vnext k := by
        rw [bn_cascading_go]
        rw [if_pos hv0]
        simp only [hb64]
        rw [bn_write_block_ok ho]
      set n' := bn_set n o b32 with hn'def
      have hlen' : n'.length = n.length := bn_set_length n o b32
      have hb' : Blocks32 n' := bn_set_blocks32 hb32lt n o hb
      have hdrop : valFrom n' (o + 1) = valFrom n (o + 1) := by
        rw [valFrom, valFrom, bn_set_drop_of_lt _ _ _ _ (by omega)]
      have hvf : valFrom n o = bn_get_block n o + 2 ^ 32 * valFrom n (o + 1) :=
        valFrom_succ n o
      have hvnext64 : vnext < 2 ^ 64 := by
        rw [hvnextdef, hupper, hcarry]
        have h1 : v / 2 ^ 32 < 2 ^ 32 := by
          apply Nat.div_lt_of_lt_mul
          omega
        have h2 : (v % 2 ^ 32 + bn_get_block n o) / 2 ^ 32 < 2 ^ 32 := by
          apply Nat.div_lt_of_lt_mul
          have : v % 2 ^ 32 < 2 ^ 32 := Nat.mod_lt _ (by norm_num)
          omega
        omega
      have hfitnext : valFrom n' (o + 1) + vnext < 2 ^ (32 * (n'.length - (o + 1))) := by
        rw [hdrop, hlen']
        have hexp : (32 : Nat) * (n.length - o) = 32 * (n.length - (o + 1)) + 32 := by
          omega
        rw [hexp, pow_add] at hfit
        have hcomb : 2 ^ 32 * (valFrom n (o + 1) + vnext) ≤ valFrom n o + v := by
          rw [hvf]
          omega
        have := Nat.lt_of_mul_lt_mul_left (a := 2 ^ 32)
          (b := valFrom n (o + 1) + vnext) (c := 2 ^ (32 * (n.length - (o + 1))))
          (by omega)
        exact this
      have hrec := ih n' (o + 1) vnext (by omega) hb' hvnext64 hfitnext
      obtain ⟨r, hr, hrlen, hrb, hrtake, hrval⟩ := hrec
      refine ⟨r, ?_, by omega, hrb, ?_, ?_⟩
      · rw [hstep, hr]
      · have h1 : r.take o = (r.take (o + 1)).take o := by
          rw [List.take_take]
          congr 1
          omega
        rw [h1, hrtake]
        have h2 : (n'.take (o + 1)).take o = n'.take o := by
          rw [List.take_take]
          congr 1
          omega
        rw [h2, hn'def, bn_set_take_of_le]
      · have hgetr : bn_get_block r o = b32 := by
          have := bn_get_block_of_take_eq hrtake
          rw [this, hn'def, bn_get_block_set_self _ _ _ (by omega)]
        rw [valFrom_succ r o, hgetr, hrval, hdrop, hvf]
        omega

theorem bn_cascading_spec {n : List Nat} {o v : Nat} (hb : Blocks32 n)
    (hv64 : v < 2 ^ 64) (hfit : valFrom n o + v < 2 ^ (32 * (n.length - o))) :
    ∃ r, bn_add_block_cascading_unchecked n o v = .ok r ∧ r.length = n.length ∧
      Blocks32 r ∧ r.take o = n.take o ∧ valFrom r o = valFrom n o + v :=
  bn_cascading_go_spec (n.length - o) n o v rfl hb hv64 hfit

theorem bn_value_replicate_zero (k : Nat) : bn_value (List.replicate k 0) = 0 := by
  induction k with
  | zero => rfl
  | succ k ih => simp [List.replicate_succ, bn_value, ih]

theorem mul_lt_two_pow_add {a b x y : Nat} (ha : a < 2 ^ x) (hb : b < 2 ^ y) :
    a * b < 2 ^ (x + y) := by
  rw [pow_add]
  exact Nat.mul_lt_mul_of_lt_of_lt ha hb

theorem mulLoopJ_spec (n1 n2 : List Nat) (hb1 : Blocks32 n1) (hb2 : Blocks32 n2)
    (L : Nat) (hL : L = n1.length + n2.length) :
    ∀ jcount joff i (result : List Nat), joff + jcount = n2.length → i < n1.length →
      Blocks32 result → result.length = L →
      bn_value result +
        bn_get_block n1 i * 2 ^ (32 * (i + joff)) * valFrom n2 joff < 2 ^ (32 * L) →
      ∃ r, mulLoopJ n1 n2 i joff jcount result = .ok r ∧ r.length = L ∧ Blocks32 r ∧
        bn_value r = bn_value result +
          bn_get_block n1 i * 2 ^ (32 * (i + joff)) * valFrom n2 joff := by
  intro jcount
  induction jcount with
  | zero =>
    intro joff i result hj hi hbr hlen hfit
    have h0 : valFrom n2 joff = 0 := valFrom_of_le_length (by omega)
    refine ⟨result, rfl, hlen, hbr, ?_⟩
    rw [h0]
    ring
  | succ jc ih =>
    intro joff i result hj hi hbr hlen hfit
    have hg1 : bn_get_block n1 i < 2 ^ 32 := bn_get_block_lt hb1 i
    have hg2 : bn_get_block n2 joff < 2 ^ 32 := bn_get_block_lt hb2 joff
    have hjo : joff < n2.length := by omega
    have ho : i + joff < L := by omega
    have hp64 : bn_get_block n1 i * bn_get_block n2 joff < 2 ^ 64 :=
      mul_lt_two_pow_add hg1 hg2
    have hpmod : (bn_get_block n1 i * bn_get_block n2 joff) % 2 ^ 64
        = bn_get_block n1 i * bn_get_block n2 joff := Nat.mod_eq_of_lt hp64
    have hvf2 : valFrom n2 joff = bn_get_block n2 joff + 2 ^ 32 * valFrom n2 (joff + 1) :=
      valFrom_succ n2 joff
    have hsplit : bn_get_block n1 i * 2 ^ (32 * (i + joff)) * valFrom n2 joff
        = bn_get_block n1 i * bn_get_block n2 joff * 2 ^ (32 * (i + joff))
          + bn_get_block n1 i * 2 ^ (32 * (i + (joff + 1))) * valFrom n2 (joff + 1) := by
      rw [hvf2, show 32 * (i + (joff + 1)) = 32 * (i + joff) + 32 by ring, pow_add]
      ring
    -- fit condition for the cascading add at offset i + joff
    have htake := bn_value_take_add result (i + joff)
    have hcfit : valFrom result (i + joff) + bn_get_block n1 i * bn_get_block n2 joff
        < 2 ^ (32 * (L - (i + joff))) := by
      have hWP : (2:Nat) ^ (32 * L)
          = 2 ^ (32 * (i + joff)) * 2 ^ (32 * (L - (i + joff))) := by
        rw [← pow_add]
        congr 1
        omega
      have hmono : 2 ^ (32 * (i + joff)) *
          (valFrom result (i + joff) + bn_get_block n1 i * bn_get_block n2 joff)
          < 2 ^ (32 * (i + joff)) * 2 ^ (32 * (L - (i + joff))) := by
        have hdist : 2 ^ (32 * (i + joff)) *
            (valFrom result (i + joff) + bn_get_block n1 i * bn_get_block n2 joff)
            = 2 ^ (32 * (i + joff)) * valFrom result (i + joff)
              + bn_get_block n1 i * bn_get_block n2 joff * 2 ^ (32 * (i + joff)) := by
          ring
        rw [hdist, ← hWP]
        omega
      exact Nat.lt_of_mul_lt_mul_left hmono
    obtain ⟨r1, hr1, hr1len, hr1b, hr1take, hr1val⟩ :=
      bn_cascading_spec hbr hp64 (by rw [hlen]; exact hcfit)
    have hr1value : bn_value r1 = bn_value result
        + bn_get_block n1 i * bn_get_block n2 joff * 2 ^ (32 * (i + joff)) := by
      have ht1 := bn_value_take_add r1 (i + joff)
      have ht0 := bn_value_take_add result (i + joff)
      rw [ht1, hr1take, hr1val]
      rw [ht0]
      ring
    have hrec := ih (joff + 1) i r1 (by omega) hi hr1b (by omega)
      (by rw [hr1value]; omega)
    obtain ⟨r, hr, hrlen, hrb, hrval⟩ := hrec
    refine ⟨r, ?_, hrlen, hrb, ?_⟩
    · rw [mulLoopJ]
      simp only [hpmod]
      rw [hr1]
      exact hr
    · rw [hrval, hr1value]
      omega

theorem mulLoopI_spec (n1 n2 : List Nat) (hb1 : Blocks32 n1) (hb2 : Blocks32 n2)
    (L : Nat) (hL : L = n1.length + n2.length) :
    ∀ icount ioff (result : List Nat), ioff + icount = n1.length →
      Blocks32 result → result.length = L →
      bn_value result + valFrom n1 ioff * 2 ^ (32 * ioff) * bn_value n2 < 2 ^ (32 * L) →
      ∃ r, mulLoopI n1 n2 ioff icount result = .ok r ∧ r.length = L ∧ Blocks32 r ∧
        bn_value r = bn_value result + valFrom n1 ioff * 2 ^ (32 * ioff) * bn_value n2 := by
  intro icount
  induction icount with
  | zero =>
    intro ioff result hi hbr hlen hfit
    have h0 : valFrom n1 ioff = 0 := valFrom_of_le_length (by omega)
    refine ⟨result, rfl, hlen, hbr, ?_⟩
    rw [h0]
    ring
  | succ ic ih =>
    intro ioff result hi hbr hlen hfit
    have hio : ioff < n1.length := by omega
    have hvf1 : valFrom n1 ioff = bn_get_block n1 ioff + 2 ^ 32 * valFrom n1 (ioff + 1) :=
      valFrom_succ n1 ioff
    have hsplit : valFrom n1 ioff * 2 ^ (32 * ioff) * bn_value n2
        = bn_get_block n1 ioff * 2 ^ (32 * (ioff + 0)) * valFrom n2 0
          + valFrom n1 (ioff + 1) * 2 ^ (32 * (ioff + 1)) * bn_value n2 := by
      rw [hvf1, valFrom_zero, show 32 * (ioff + 1) = 32 * ioff + 32 by ring, pow_add,
        Nat.add_zero]
      ring
    obtain ⟨r1, hr1, hr1len, hr1b, hr1val⟩ :=
      mulLoopJ_spec n1 n2 hb1 hb2 L hL n2.length 0 ioff result (by omega) hio hbr hlen
        (by omega)
    have hrec := ih (ioff + 1) r1 (by omega) hr1b hr1len (by rw [hr1val]; omega)
    obtain ⟨r, hr, hrlen, hrb, hrval⟩ := hrec
    refine ⟨r, ?_, hrlen, hrb, ?_⟩
    · rw [mulLoopI, hr1]
      exact hr
    · rw [hrval, hr1val]
      omega

theorem bn_multiply_spec {n1 n2 : List Nat} (hb1 : Blocks32 n1) (hb2 : Blocks32 n2) :
    ∃ r, bn_multiply n1 n2 = .ok r ∧ bn_value r = bn_value n1 * bn_value n2 ∧
      Blocks32 r ∧ (n1 ≠ [] → bn_canonical r) := by
  have hrep : Blocks32 (bn_with_len (n1.length + n2.length)) := by
    intro x hx
    rw [bn_with_len] at hx
    have := List.eq_of_mem_replicate hx
    subst this
    norm_num
  have hrlen : (bn_with_len (n1.length + n2.length)).length = n1.length + n2.length := by
    simp [bn_with_len]
  have hval0 : bn_value (bn_with_len (n1.length + n2.length)) = 0 :=
    bn_value_replicate_zero _
  have hfit : bn_value (bn_with_len (n1.length + n2.length))
      + valFrom n1 0 * 2 ^ (32 * 0) * bn_value n2
      < 2 ^ (32 * (n1.length + n2.length)) := by
    rw [hval0, valFrom_zero]
    simp only [Nat.mul_zero, pow_zero, Nat.mul_one, Nat.zero_add]
    have h1 := bn_value_lt hb1
    have h2 := bn_value_lt hb2
    have := mul_lt_two_pow_add h1 h2
    calc bn_value n1 * bn_value n2 < 2 ^ (32 * n1.length + 32 * n2.length) := this
      _ = 2 ^ (32 * (n1.length + n2.length)) := by ring_nf
  obtain ⟨r0, hr0, hr0len, hr0b, hr0val⟩ :=
    mulLoopI_spec n1 n2 hb1 hb2 (n1.length + n2.length) rfl n1.length 0
      (bn_with_len (n1.length + n2.length)) (by omega) hrep hrlen hfit
  refine ⟨bn_trim r0, ?_, ?_, bn_trim_blocks32 hr0b, ?_⟩
  · rw [bn_multiply, hr0]
  · rw [bn_trim_value, hr0val, hval0, valFrom_zero]
    simp
  · intro hne
    apply bn_trim_canonical
    intro hnil
    rw [hnil] at hr0len
    simp at hr0len
    have : n1.length = 0 := by omega
    exact hne (List.length_eq_zero.mp this)

/-! ### Division with remainder -/

/-- The binary search for one 32-bit quotient digit: for each bit from the
most significant down, speculatively set it, multiply the trial digit by n2,
and keep the bit only if the product does not exceed the remainder `r`. -/
def digitSearch (n2 r : List Nat) (bits d : Nat) : Except BnError Nat :=
  match bits with
  | 0 => .ok d
  | b + 1 =>
    let trial := d ||| 1 <<< b
    match bn_multiply [trial] n2 with
    | .error e => .error e
    | .ok product =>
      digitSearch n2 r b (if bn_greater_than product r then d else trial)

/-- One iteration of the division loop at block `offset`: shift the running
remainder left by one block (prepending the block of n1 at `offset`), trim,
and if the shifted remainder reaches n2, find the 32-bit quotient digit,
subtract digit × n2, and record the digit in the quotient. -/
def divStep (n1 n2 : List Nat) (offset : Nat) (q r : List Nat) :
    Except BnError (List Nat × List Nat) :=
  let r1 := bn_trim (bn_get_block n1 offset :: r)
  if 0 ≤ bn_compare r1 n2 then
    match digitSearch n2 r1 32 0 with
    | .error e => .error e
    | .ok d =>
      match bn_multiply [d] n2 with
      | .error e => .error e
      | .ok product =>
        match bn_subtract r1 product with
        | .error e => .error e
        | .ok r2 =>
          match bn_write_block q offset d with
          | .error e => .error e
          | .ok q' => .ok (q', r2)
  else .ok (q, r1)

/-- The quotient buffer length: len(n1) - (len(n2) - 1) when len(n1) >
len(n2), else 1. -/
def quotientLen (n1 n2 : List Nat) : Nat :=
  if n2.length < n1.length then n1.length - (n2.length - 1) else 1

/-- The first `steps` iterations of the division loop (offsets len(n1)-1
down to len(n1)-steps), starting from a zeroed quotient and a zero
remainder. -/
def divRun (n1 n2 : List Nat) (steps : Nat) : Except BnError (List Nat × List Nat) :=
  match steps with
  | 0 => .ok (bn_with_len (quotientLen n1 n2), bn_zero)
  | s + 1 =>
    match divRun n1 n2 s with
    | .error e => .error e
    | .ok qr => divStep n1 n2 (n1.length - (s + 1)) qr.1 qr.2

/-- `bn_divide_with_remainder`: fails with `divideByZero` when n2 is the
single zero block; otherwise runs the long-division loop over every block of
n1 and trims both results. -/
def bn_divide_with_remainder (n1 n2 : List Nat) :
    Except BnError (List Nat × List Nat) :=
  if n2.length = 1 ∧ bn_get_block n2 0 = 0 then .error .divideByZero
  else
    match divRun n1 n2 n1.length with
    | .error e => .error e
    | .ok qr => .ok (bn_trim qr.1, bn_trim qr.2)

/-- `bn_divide`: the quotient projection of `bn_divide_with_remainder`. -/
def bn_divide (n1 n2 : List Nat) : Except BnError (List Nat) :=
  match bn_divide_with_remainder n1 n2 with
  | .error e => .error e
  | .ok qr => .ok qr.1

/-- `bn_mod`: the remainder projection of `bn_divide_with_remainder`. -/
def bn_mod (n1 n2 : List Nat) : Except BnError (List Nat) :=
  match bn_divide_with_remainder n1 n2 with
  | .error e => .error e
  | .ok qr => .ok qr.2

theorem digitSearch_spec {n2 r : List Nat} (hc2 : bn_canonical n2)
    (hb2 : Blocks32 n2) (hpos : 0 < bn_value n2) (hcr : bn_canonical r)
    (hbr : Blocks32 r) (hq32 : bn_value r / bn_value n2 < 2 ^ 32) :
    ∀ bits d, bits ≤ 32 →
      d = 2 ^ bits * (bn_value r / bn_value n2 / 2 ^ bits) →
      digitSearch n2 r bits d = .ok (bn_value r / bn_value n2) := by
  intro bits
  induction bits with
  | zero =>
    intro d _ hd
    simp only [pow_zero, Nat.one_mul, Nat.div_one] at hd
    rw [digitSearch, hd]
  | succ b ih =>
    intro d hble hd
    set q := bn_value r / bn_value n2 with hqdef
    set k := q / 2 ^ (b + 1) with hkdef
    have hqup : q < 2 ^ (b + 1) * (k + 1) := by
      have hdm := Nat.div_add_mod q (2 ^ (b + 1))
      have hlt := Nat.mod_lt q (show 0 < 2 ^ (b + 1) from Nat.two_pow_pos _)
      calc q = 2 ^ (b + 1) * k + q % 2 ^ (b + 1) := hdm.symm
        _ < 2 ^ (b + 1) * k + 2 ^ (b + 1) := Nat.add_lt_add_left hlt _
        _ = 2 ^ (b + 1) * (k + 1) := by ring
    have hdlo : d ≤ q := by
      rw [hd]
      calc 2 ^ (b + 1) * (q / 2 ^ (b + 1)) = q / 2 ^ (b + 1) * 2 ^ (b + 1) := by ring
        _ ≤ q := Nat.div_mul_le_self q (2 ^ (b + 1))
    have htrial : d ||| 1 <<< b = d + 2 ^ b := by
      rw [Nat.one_shiftLeft, hd]
      rw [← Nat.mul_add_lt_is_or (Nat.pow_lt_pow_right (by norm_num) (by omega)) _]
    have htrial32 : d + 2 ^ b < 2 ^ 32 := by
      have hk32 : k < 2 ^ (32 - (b + 1)) := by
        rw [hkdef]
        rw [Nat.div_lt_iff_lt_mul (Nat.two_pow_pos _)]
        calc q < 2 ^ 32 := hq32
          _ = 2 ^ (32 - (b + 1)) * 2 ^ (b + 1) := by
            rw [← pow_add]
            congr 1
            omega
      have h1 : d + 2 ^ b < 2 ^ (b + 1) * (k + 1) := by
        rw [hd]
        have : (2:Nat) ^ b + 2 ^ b = 2 ^ (b + 1) := by
          rw [pow_succ]
          ring
        calc 2 ^ (b + 1) * k + 2 ^ b < 2 ^ (b + 1) * k + 2 ^ (b + 1) := by
              have : (0:Nat) < 2 ^ b := Nat.two_pow_pos _
              have h2 : (2:Nat) ^ b < 2 ^ (b + 1) :=
                Nat.pow_lt_pow_right (by norm_num) (by omega)
              omega
          _ = 2 ^ (b + 1) * (k + 1) := by ring
      calc d + 2 ^ b < 2 ^ (b + 1) * (k + 1) := h1
        _ ≤ 2 ^ (b + 1) * 2 ^ (32 - (b + 1)) := Nat.mul_le_mul_left _ (by omega)
        _ = 2 ^ 32 := by
          rw [← pow_add]
          congr 1
          omega
    have hbtrial : Blocks32 [d + 2 ^ b] := by
      intro x hx
      rcases List.mem_singleton.mp hx with rfl
      exact htrial32
    obtain ⟨p, hp, hpval, hpb, hpc⟩ := bn_multiply_spec hbtrial hb2
    have hpcanon : bn_canonical p := hpc (by simp)
    have hpv : bn_value p = (d + 2 ^ b) * bn_value n2 := by
      rw [hpval]
      simp [bn_value]
    have hgt : bn_greater_than p r = decide (bn_value r < bn_value p) :=
      bn_greater_than_correct hpcanon hcr hpb hbr
    have hstep : digitSearch n2 r (b + 1) d =
        digitSearch n2 r b (if bn_greater_than p r then d else (d + 2 ^ b)) := by
      rw [digitSearch]
      simp only [htrial, hp]
    rw [hstep, hgt]
    by_cases hcase : bn_value r < bn_value p
    · -- trial too large: bit stays 0
      rw [if_pos (by simpa using hcase)]
      have hqlt : q < d + 2 ^ b := by
        rw [hpv] at hcase
        exact (Nat.div_lt_iff_lt_mul hpos).mpr hcase
      have hqb : q / 2 ^ b = 2 * k := by
        apply Nat.div_eq_of_lt_le
        · calc 2 * k * 2 ^ b = 2 ^ (b + 1) * k := by ring
            _ ≤ q := by
              rw [← hd]
              exact hdlo
        · calc q < d + 2 ^ b := hqlt
            _ = (2 * k + 1) * 2 ^ b := by
              rw [hd, pow_succ]
              ring
      exact ih d (by omega) (by rw [hd, hqb, pow_succ]; ring)
    · -- trial fits: keep the bit
      rw [if_neg (by simpa using hcase)]
      push_neg at hcase
      have htle : d + 2 ^ b ≤ q := by
        rw [hpv] at hcase
        rw [hqdef]
        exact (Nat.le_div_iff_mul_le hpos).mpr hcase
      have hqb : q / 2 ^ b = 2 * k + 1 := by
        apply Nat.div_eq_of_lt_le
        · have he1 : (2 * k + 1) * 2 ^ b = 2 ^ (b + 1) * k + 2 ^ b := by
            rw [pow_succ]; ring
          rw [he1, ← hd]
          exact htle
        · have he2 : (2 * k + 1 + 1) * 2 ^ b = 2 ^ (b + 1) * (k + 1) := by
            rw [pow_succ]; ring
          rw [he2]
          exact hqup
      exact ih (d + 2 ^ b) (by omega)
        (by rw [hd, hqb, pow_succ]; ring)

theorem bn_set_take_of_lt (v : Nat) :
    ∀ (n : List Nat) (o j : Nat), j ≤ o → (bn_set n o v).take j = n.take j := by
  intro n
  induction n with
  | nil => intro o j h; simp [bn_set]
  | cons b rest ih =>
    intro o j h
    cases o with
    | zero =>
      cases j with
      | zero => simp
      | succ j => omega
    | succ o =>
      cases j with
      | zero => simp
      | succ j => simp [bn_set, ih o j (by omega)]

theorem bn_get_block_set_of_lt (v : Nat) {n : List Nat} {o i : Nat} (h : i < o) :
    bn_get_block (bn_set n o v) i = bn_get_block n i := by
  apply bn_get_block_of_take_eq
  exact bn_set_take_of_lt v n o (i + 1) (by omega)

theorem bn_get_block_replicate (k i : Nat) :
    bn_get_block (List.replicate k 0) i = 0 := by
  induction k generalizing i with
  | zero => simp [bn_get_block]
  | succ k ih =>
    cases i with
    | zero => simp [List.replicate_succ, bn_get_block]
    | succ i => simp [List.replicate_succ, bn_get_block, ih]

theorem valFrom_replicate (k i : Nat) : valFrom (List.replicate k 0) i = 0 := by
  rw [valFrom, List.drop_replicate, bn_value_replicate_zero]

theorem bn_canonical_pos_ge {n : List Nat} (hc : bn_canonical n)
    (hpos : 0 < bn_value n) : 2 ^ (32 * (n.length - 1)) ≤ bn_value n := by
  rcases Nat.lt_or_ge n.length 2 with hlen | hlen
  · have h1 : n.length - 1 = 0 := by omega
    rw [h1]
    simpa using hpos
  · exact bn_canonical_value_ge hc hlen

theorem divStep_spec {n1 n2 : List Nat} (hb1 : Blocks32 n1) (hb2 : Blocks32 n2)
    (hc2 : bn_canonical n2) (hpos : 0 < bn_value n2) {k : Nat} (hk : k < n1.length)
    {q r : List Nat} (hqlen : q.length = quotientLen n1 n2) (hqb : Blocks32 q)
    (hqpre : ∀ i, i < k + 1 → bn_get_block q i = 0)
    (hrc : bn_canonical r) (hrb : Blocks32 r)
    (hrval : bn_value r = valFrom n1 (k + 1) % bn_value n2)
    (hqval : valFrom q (k + 1) = valFrom n1 (k + 1) / bn_value n2) :
    ∃ q' r', divStep n1 n2 k q r = .ok (q', r') ∧
      q'.length = quotientLen n1 n2 ∧ Blocks32 q' ∧
      (∀ i, i < k → bn_get_block q' i = 0) ∧
      bn_canonical r' ∧ Blocks32 r' ∧
      bn_value r' = valFrom n1 k % bn_value n2 ∧
      valFrom q' k = valFrom n1 k / bn_value n2 := by
  have h32 : (2:Nat) ^ 32 = 4294967296 := by norm_num
  have hg1 : bn_get_block n1 k < 2 ^ 32 := bn_get_block_lt hb1 k
  have hr1c : bn_canonical (bn_trim (bn_get_block n1 k :: r)) :=
    bn_trim_canonical (by simp)
  have hr1b : Blocks32 (bn_trim (bn_get_block n1 k :: r)) := by
    apply bn_trim_blocks32
    intro x hx
    rcases List.mem_cons.mp hx with rfl | hx
    · exact hg1
    · exact hrb x hx
  have hr1v : bn_value (bn_trim (bn_get_block n1 k :: r))
      = bn_get_block n1 k + 2 ^ 32 * (valFrom n1 (k + 1) % bn_value n2) := by
    rw [bn_trim_value]
    simp [bn_value, hrval]
  have hrem_lt : valFrom n1 (k + 1) % bn_value n2 < bn_value n2 :=
    Nat.mod_lt _ hpos
  have hr1lt : bn_value (bn_trim (bn_get_block n1 k :: r)) < 2 ^ 32 * bn_value n2 := by
    rw [hr1v, h32]
    omega
  have hAk : valFrom n1 k = bn_value (bn_trim (bn_get_block n1 k :: r))
      + 2 ^ 32 * (bn_value n2 * (valFrom n1 (k + 1) / bn_value n2)) := by
    rw [valFrom_succ n1 k, hr1v]
    have hdm := Nat.div_add_mod (valFrom n1 (k + 1)) (bn_value n2)
    rw [h32]
    omega
  have hcmp := bn_compare_correct hr1c hc2 hr1b hb2
  by_cases hge : bn_value n2 ≤ bn_value (bn_trim (bn_get_block n1 k :: r))
  · -- the shifted remainder reaches n2: a nonzero digit is produced
    have hcond : (0:Int) ≤ bn_compare (bn_trim (bn_get_block n1 k :: r)) n2 := by
      rw [hcmp]
      by_cases he : bn_value n2 < bn_value (bn_trim (bn_get_block n1 k :: r))
      · rw [if_pos he]; norm_num
      · rw [if_neg he, if_neg (by omega)]
    have hq32 : bn_value (bn_trim (bn_get_block n1 k :: r)) / bn_value n2 < 2 ^ 32 := by
      rw [Nat.div_lt_iff_lt_mul hpos]
      exact hr1lt
    have hinit : (0:Nat) = 2 ^ 32 *
        (bn_value (bn_trim (bn_get_block n1 k :: r)) / bn_value n2 / 2 ^ 32) := by
      rw [Nat.div_eq_of_lt hq32]
      simp
    have hsearch := digitSearch_spec hc2 hb2 hpos hr1c hr1b hq32 32 0 (le_refl 32) hinit
    have hbq : Blocks32 [bn_value (bn_trim (bn_get_block n1 k :: r)) / bn_value n2] := by
      intro x hx
      rcases List.mem_singleton.mp hx with rfl
      exact hq32
    obtain ⟨p, hp, hpval, hpb, hpc⟩ := bn_multiply_spec hbq hb2
    have hpcanon : bn_canonical p := hpc (by simp)
    have hpv : bn_value p = bn_value n2 *
        (bn_value (bn_trim (bn_get_block n1 k :: r)) / bn_value n2) := by
      rw [hpval]
      simp [bn_value]
      ring
    have hple : bn_value p ≤ bn_value (bn_trim (bn_get_block n1 k :: r)) := by
      rw [hpv]
      calc bn_value n2 * (bn_value (bn_trim (bn_get_block n1 k :: r)) / bn_value n2)
          = bn_value (bn_trim (bn_get_block n1 k :: r)) / bn_value n2 * bn_value n2 := by
            ring
        _ ≤ bn_value (bn_trim (bn_get_block n1 k :: r)) := Nat.div_mul_le_self _ _
    obtain ⟨d2, hsub, hsubval, hdc, hdb⟩ := bn_subtract_spec hr1c hpcanon hr1b hpb hple
    have hdm1 := Nat.div_add_mod (bn_value (bn_trim (bn_get_block n1 k :: r))) (bn_value n2)
    have hrm : bn_value d2 = bn_value (bn_trim (bn_get_block n1 k :: r)) % bn_value n2 := by
      rw [hpv] at hsubval
      omega
    have hl2pos : 0 < n2.length := List.length_pos.mpr hc2.1
    have hklt : k < q.length := by
      rw [hqlen, quotientLen]
      have hvfk : valFrom n1 k < 2 ^ (32 * (n1.length - k)) := valFrom_lt hb1 k
      have hr1le : bn_value (bn_trim (bn_get_block n1 k :: r)) ≤ valFrom n1 k := by
        omega
      have hbig : 2 ^ (32 * (n2.length - 1)) ≤ bn_value n2 := bn_canonical_pos_ge hc2 hpos
      by_cases hll : n2.length < n1.length
      · rw [if_pos hll]
        by_contra hcon
        push_neg at hcon
        have hle2 : (2:Nat) ^ (32 * (n1.length - k)) ≤ 2 ^ (32 * (n2.length - 1)) :=
          Nat.pow_le_pow_right (by norm_num) (by omega)
        omega
      · rw [if_neg hll]
        by_contra hcon
        push_neg at hcon
        have hle2 : (2:Nat) ^ (32 * (n1.length - k)) ≤ 2 ^ (32 * (n2.length - 1)) :=
          Nat.pow_le_pow_right (by norm_num) (by omega)
        omega
    have hq32b : Blocks32 (bn_set q k
        (bn_value (bn_trim (bn_get_block n1 k :: r)) / bn_value n2)) :=
      bn_set_blocks32 hq32 q k hqb
    have hstep : divStep n1 n2 k q r = .ok
        (bn_set q k (bn_value (bn_trim (bn_get_block n1 k :: r)) / bn_value n2), d2) := by
      simp only [divStep, if_pos hcond, hsearch, hp, hsub, bn_write_block_ok hklt]
    refine ⟨_, _, hstep, ?_, hq32b, ?_, hdc, hdb, ?_, ?_⟩
    · rw [bn_set_length, hqlen]
    · intro i hi
      rw [bn_get_block_set_of_lt _ hi]
      exact hqpre i (by omega)
    · rw [hrm]
      -- valFrom n1 k = n2 * (digit + 2^32 * Q) + (r1 % n2)
      have hexp : valFrom n1 k = bn_value n2 *
          (bn_value (bn_trim (bn_get_block n1 k :: r)) / bn_value n2
            + 4294967296 * (valFrom n1 (k + 1) / bn_value n2))
          + bn_value (bn_trim (bn_get_block n1 k :: r)) % bn_value n2 := by
        rw [hAk, h32]
        ring_nf
        omega
      rw [hexp, Nat.mul_add_mod, Nat.mod_eq_of_lt (Nat.mod_lt _ hpos)]
    · have hvq : valFrom (bn_set q k
          (bn_value (bn_trim (bn_get_block n1 k :: r)) / bn_value n2)) k
          = bn_value (bn_trim (bn_get_block n1 k :: r)) / bn_value n2
            + 2 ^ 32 * (valFrom n1 (k + 1) / bn_value n2) := by
        rw [valFrom_succ, bn_get_block_set_self _ _ _ hklt]
        have hdropq : valFrom (bn_set q k
            (bn_value (bn_trim (bn_get_block n1 k :: r)) / bn_value n2)) (k + 1)
            = valFrom q (k + 1) := by
          rw [valFrom, valFrom, bn_set_drop_of_lt _ _ _ _ (by omega)]
        rw [hdropq, hqval]
      rw [hvq]
      have hexp : valFrom n1 k = bn_value n2 *
          (bn_value (bn_trim (bn_get_block n1 k :: r)) / bn_value n2
            + 4294967296 * (valFrom n1 (k + 1) / bn_value n2))
          + bn_value (bn_trim (bn_get_block n1 k :: r)) % bn_value n2 := by
        rw [hAk, h32]
        ring_nf
        omega
      rw [hexp, Nat.mul_add_div hpos, Nat.div_eq_of_lt (Nat.mod_lt _ hpos), h32]
      omega
  · -- the shifted remainder is smaller than n2: digit 0, nothing written
    have hcond : ¬ (0:Int) ≤ bn_compare (bn_trim (bn_get_block n1 k :: r)) n2 := by
      rw [hcmp]
      rw [if_neg (by omega), if_pos (by omega)]
      norm_num
    have hstep : divStep n1 n2 k q r = .ok (q, bn_trim (bn_get_block n1 k :: r)) := by
      simp only [divStep, if_neg hcond]
    refine ⟨_, _, hstep, hqlen, hqb, ?_, hr1c, hr1b, ?_, ?_⟩
    · intro i hi
      exact hqpre i (by omega)
    · have hexp : valFrom n1 k = bn_value n2 *
          (4294967296 * (valFrom n1 (k + 1) / bn_value n2))
          + bn_value (bn_trim (bn_get_block n1 k :: r)) := by
        rw [hAk, h32]
        ring
      have hlt1 : bn_value (bn_trim (bn_get_block n1 k :: r)) < bn_value n2 := by
        omega
      rw [hexp, Nat.mul_add_mod, Nat.mod_eq_of_lt hlt1]
    · have hvq : valFrom q k = 2 ^ 32 * (valFrom n1 (k + 1) / bn_value n2) := by
        rw [valFrom_succ, hqpre k (by omega), hqval]
        omega
      have hexp : valFrom n1 k = bn_value n2 *
          (4294967296 * (valFrom n1 (k + 1) / bn_value n2))
          + bn_value (bn_trim (bn_get_block n1 k :: r)) := by
        rw [hAk, h32]
        ring
      have hlt1 : bn_value (bn_trim (bn_get_block n1 k :: r)) < bn_value n2 := by
        omega
      rw [hexp, Nat.mul_add_div hpos, Nat.div_eq_of_lt hlt1, hvq, h32]
      omega

theorem divRun_spec {n1 n2 : List Nat} (hb1 : Blocks32 n1) (hb2 : Blocks32 n2)
    (hc2 : bn_canonical n2) (hpos : 0 < bn_value n2) :
    ∀ steps, steps ≤ n1.length →
      ∃ q r, divRun n1 n2 steps = .ok (q, r) ∧
        q.length = quotientLen n1 n2 ∧ Blocks32 q ∧
        (∀ i, i < n1.length - steps → bn_get_block q i = 0) ∧
        bn_canonical r ∧ Blocks32 r ∧
        bn_value r = valFrom n1 (n1.length - steps) % bn_value n2 ∧
        valFrom q (n1.length - steps) = valFrom n1 (n1.length - steps) / bn_value n2 := by
  intro steps
  induction steps with
  | zero =>
    intro _
    refine ⟨bn_with_len (quotientLen n1 n2), bn_zero, rfl, ?_, ?_, ?_, ?_, ?_, ?_, ?_⟩
    · simp [bn_with_len]
    · intro x hx
      rw [bn_with_len] at hx
      have := List.eq_of_mem_replicate hx
      subst this
      norm_num
    · intro i _
      exact bn_get_block_replicate _ i
    · exact ⟨by simp [bn_zero], Or.inl rfl⟩
    · intro x hx
      rcases List.mem_singleton.mp hx with rfl
      norm_num
    · rw [valFrom_of_le_length (by omega)]
      simp [bn_zero, bn_value]
    · rw [bn_with_len, valFrom_replicate, valFrom_of_le_length (by omega)]
      simp
  | succ s ih =>
    intro hle
    obtain ⟨q0, r0, hrun, hq0len, hq0b, hq0pre, hr0c, hr0b, hr0val, hq0val⟩ :=
      ih (by omega)
    have hk : n1.length - (s + 1) < n1.length := by omega
    have hkk : n1.length - s = n1.length - (s + 1) + 1 := by omega
    rw [hkk] at hq0pre hr0val hq0val
    obtain ⟨q1, r1, hstep, hp1, hp2, hp3, hp4, hp5, hp6, hp7⟩ :=
      divStep_spec hb1 hb2 hc2 hpos hk hq0len hq0b hq0pre hr0c hr0b hr0val hq0val
    refine ⟨q1, r1, ?_, hp1, hp2, hp3, hp4, hp5, hp6, hp7⟩
    rw [divRun, hrun]
    exact hstep

theorem bn_zero_test_iff {n2 : List Nat} (hc2 : bn_canonical n2) :
    (n2.length = 1 ∧ bn_get_block n2 0 = 0) ↔ bn_value n2 = 0 := by
  constructor
  · rintro ⟨h1, h2⟩
    cases n2 with
    | nil => simp at h1
    | cons b rest =>
      cases rest with
      | nil =>
        simp [bn_get_block] at h2
        simp [bn_value, h2]
      | cons c rs => simp at h1
  · intro hv
    have h0 := (bn_canonical_zero_iff hc2).mp hv
    subst h0
    exact ⟨rfl, rfl⟩

theorem quotientLen_pos {n1 n2 : List Nat} (hl2 : 0 < n2.length) :
    0 < quotientLen n1 n2 := by
  rw [quotientLen]
  by_cases h : n2.length < n1.length
  · rw [if_pos h]; omega
  · rw [if_neg h]; omega

theorem bn_divide_with_remainder_spec {n1 n2 : List Nat} (hb1 : Blocks32 n1)
    (hb2 : Blocks32 n2) (hc2 : bn_canonical n2) (hpos : 0 < bn_value n2) :
    ∃ q r, bn_divide_with_remainder n1 n2 = .ok (q, r) ∧
      bn_value q = bn_value n1 / bn_value n2 ∧
      bn_value r = bn_value n1 % bn_value n2 ∧
      bn_canonical q ∧ bn_canonical r ∧ Blocks32 q ∧ Blocks32 r := by
  have hzt : ¬(n2.length = 1 ∧ bn_get_block n2 0 = 0) := by
    rw [bn_zero_test_iff hc2]
    omega
  obtain ⟨q0, r0, hrun, hq0len, hq0b, hq0pre, hr0c, hr0b, hr0val, hq0val⟩ :=
    divRun_spec hb1 hb2 hc2 hpos n1.length (le_refl _)
  rw [Nat.sub_self] at hr0val hq0val
  have hq0ne : q0 ≠ [] := by
    intro h
    rw [h] at hq0len
    have := @quotientLen_pos n1 n2 (List.length_pos.mpr hc2.1)
    simp at hq0len
    omega
  refine ⟨bn_trim q0, bn_trim r0, ?_, ?_, ?_, bn_trim_canonical hq0ne,
    bn_trim_canonical hr0c.1, bn_trim_blocks32 hq0b, bn_trim_blocks32 hr0b⟩
  · rw [bn_divide_with_remainder, if_neg hzt, hrun]
  · rw [bn_trim_value]
    rw [← valFrom_zero q0, hq0val, valFrom_zero]
  · rw [bn_trim_value, hr0val, valFrom_zero]

theorem bn_divide_with_remainder_zero {n1 n2 : List Nat} (hc2 : bn_canonical n2)
    (hz : bn_value n2 = 0) :
    bn_divide_with_remainder n1 n2 = .error .divideByZero := by
  rw [bn_divide_with_remainder, if_pos ((bn_zero_test_iff hc2).mpr hz)]

theorem bn_divide_spec {n1 n2 : List Nat} (hb1 : Blocks32 n1)
    (hb2 : Blocks32 n2) (hc2 : bn_canonical n2) (hpos : 0 < bn_value n2) :
    ∃ q, bn_divide n1 n2 = .ok q ∧ bn_value q = bn_value n1 / bn_value n2 ∧
      bn_canonical q ∧ Blocks32 q := by
  obtain ⟨q, r, hdwr, hq, hr, hcq, hcr, hbq, hbr⟩ :=
    bn_divide_with_remainder_spec hb1 hb2 hc2 hpos
  exact ⟨q, by rw [bn_divide, hdwr], hq, hcq, hbq⟩

theorem bn_mod_spec {n1 n2 : List Nat} (hb1 : Blocks32 n1)
    (hb2 : Blocks32 n2) (hc2 : bn_canonical n2) (hpos : 0 < bn_value n2) :
    ∃ r, bn_mod n1 n2 = .ok r ∧ bn_value r = bn_value n1 % bn_value n2 ∧
      bn_canonical r ∧ Blocks32 r := by
  obtain ⟨q, r, hdwr, hq, hr, hcq, hcr, hbq, hbr⟩ :=
    bn_divide_with_remainder_spec hb1 hb2 hc2 hpos
  exact ⟨r, by rw [bn_mod, hdwr], hr, hcr, hbr⟩

/-! ### Modular exponentiation -/

/-- The inner bit loop of `bn_power_mod` over the `bits` lowest bit positions
of one exponent block, most significant position first.  While
`search_start` is set, zero bits are skipped; from the first set bit on, the
running result is squared, multiplied by the base on set bits, and reduced
modulo `m` after every step. -/
def pmBits (base m : List Nat) (exp_block bits : Nat) (result : List Nat)
    (search_start : Bool) : Except BnError (List Nat × Bool) :=
  match bits with
  | 0 => .ok (result, search_start)
  | b + 1 =>
    let bit := Nat.testBit exp_block b
    if search_start && !bit then pmBits base m exp_block b result search_start
    else
      match bn_multiply result result with
      | .error e => .error e
      | .ok r1 =>
        match (if bit then bn_multiply r1 base else .ok r1) with
        | .error e => .error e
        | .ok r2 =>
          match bn_mod r2 m with
          | .error e => .error e
          | .ok r3 => pmBits base m exp_block b r3 false

/-- The outer loop of `bn_power_mod` over the exponent blocks, most
significant block first. -/
def pmBlocks (base m : List Nat) (blocks : List Nat) (result : List Nat)
    (search_start : Bool) : Except BnError (List Nat × Bool) :=
  match blocks with
  | [] => .ok (result, search_start)
  | blk :: rest =>
    match pmBits base m blk 32 result search_start with
    | .error e => .error e
    | .ok rs => pmBlocks base m rest rs.1 rs.2

/-- `bn_power_mod`: fails with `divideByZero` when the modulus is the single
zero block; otherwise computes base^exp mod m by square-and-multiply over
the exponent bits from the most significant set bit downward, and trims. -/
def bn_power_mod (base exp m : List Nat) : Except BnError (List Nat) :=
  if m.length = 1 ∧ bn_get_block m 0 = 0 then .error .divideByZero
  else
    match pmBlocks base m exp.reverse bn_one true with
    | .error e => .error e
    | .ok rs => .ok (bn_trim rs.1)

theorem mod_two_pow_succ (x b : Nat) :
    x % 2 ^ (b + 1) = x % 2 ^ b + 2 ^ b * (x / 2 ^ b % 2) := by
  rw [pow_succ]
  exact Nat.mod_mul

theorem testBit_mod_decomp {x b : Nat} :
    (Nat.testBit x b = true → x % 2 ^ (b + 1) = x % 2 ^ b + 2 ^ b) ∧
    (Nat.testBit x b = false → x % 2 ^ (b + 1) = x % 2 ^ b) := by
  have hdm := mod_two_pow_succ x b
  have htb : Nat.testBit x b = decide (x / 2 ^ b % 2 = 1) := Nat.testBit_to_div_mod
  have h2 : x / 2 ^ b % 2 < 2 := Nat.mod_lt _ (by norm_num)
  constructor
  · intro h
    rw [htb] at h
    have : x / 2 ^ b % 2 = 1 := of_decide_eq_true h
    rw [hdm, this]
    omega
  · intro h
    rw [htb] at h
    have : ¬ (x / 2 ^ b % 2 = 1) := of_decide_eq_false h
    have h0 : x / 2 ^ b % 2 = 0 := by omega
    rw [hdm, h0]
    omega

theorem mod_sq_mul_mod (x c m : Nat) :
    (x % m * (x % m) * c) % m = (x * x * c) % m := by
  have h1 : (x % m * (x % m)) % m = x * x % m := (Nat.mul_mod x x m).symm
  calc (x % m * (x % m) * c) % m
      = ((x % m * (x % m)) % m * (c % m)) % m := Nat.mul_mod _ _ _
    _ = (x * x % m * (c % m)) % m := by rw [h1]
    _ = (x * x * c) % m := (Nat.mul_mod _ _ _).symm

theorem pmBits_go {base m : List Nat} (hbb : Blocks32 base) (hbm : Blocks32 m)
    (hcm : bn_canonical m) (hm : 0 < bn_value m) :
    ∀ bits blk (result : List Nat) (A : Nat), Blocks32 result →
      bn_canonical result →
      bn_value result = bn_value base ^ A % bn_value m →
      ∃ r, pmBits base m blk bits result false = .ok (r, false) ∧ Blocks32 r ∧
        bn_canonical r ∧
        bn_value r = bn_value base ^ (A * 2 ^ bits + blk % 2 ^ bits) % bn_value m := by
  intro bits
  induction bits with
  | zero =>
    intro blk result A hbr hcr hval
    refine ⟨result, rfl, hbr, hcr, ?_⟩
    rw [pow_zero, Nat.mul_one, Nat.mod_one, Nat.add_zero]
    exact hval
  | succ b ih =>
    intro blk result A hbr hcr hval
    obtain ⟨r1, hr1, hr1val, hr1b, hr1c⟩ := bn_multiply_spec hbr hbr
    have hr1canon : bn_canonical r1 := hr1c hcr.1
    have hstep2 : ∃ r2, (if Nat.testBit blk b then bn_multiply r1 base
        else .ok r1) = .ok r2 ∧ Blocks32 r2 ∧ bn_canonical r2 ∧
        bn_value r2 = bn_value result * bn_value result *
          bn_value base ^ (if Nat.testBit blk b then 1 else 0) := by
      by_cases hbit : Nat.testBit blk b
      · rw [if_pos hbit]
        obtain ⟨r2, hr2, hr2val, hr2b, hr2c⟩ := bn_multiply_spec hr1b hbb
        refine ⟨r2, by rw [hr2], hr2b, hr2c hr1canon.1, ?_⟩
        rw [hr2val, hr1val, if_pos hbit, pow_one]
      · rw [if_neg hbit]
        refine ⟨r1, rfl, hr1b, hr1canon, ?_⟩
        rw [hr1val, if_neg hbit, pow_zero, Nat.mul_one]
    obtain ⟨r2, hr2, hr2b, hr2c, hr2val⟩ := hstep2
    obtain ⟨r3, hr3, hr3val, hr3c, hr3b⟩ := bn_mod_spec hr2b hbm hcm hm
    have hr3v : bn_value r3 = bn_value base ^ (2 * A + (if Nat.testBit blk b
        then 1 else 0)) % bn_value m := by
      rw [hr3val, hr2val, hval, mod_sq_mul_mod]
      congr 1
      rw [← pow_add, ← pow_add]
      congr 1
      omega
    obtain ⟨r, hr, hrb, hrc, hrval⟩ := ih blk r3
      (2 * A + (if Nat.testBit blk b then 1 else 0)) hr3b hr3c hr3v
    refine ⟨r, ?_, hrb, hrc, ?_⟩
    · rw [pmBits]
      have hcond : ¬ (false && !(Nat.testBit blk b)) = true := by simp
      simp only [if_neg hcond, hr1, hr2, hr3]
      exact hr
    · rw [hrval]
      congr 2
      by_cases hbit : Nat.testBit blk b
      · rw [if_pos hbit, (testBit_mod_decomp).1 hbit, pow_succ]
        ring
      · rw [if_neg hbit, (testBit_mod_decomp).2 (by simpa using hbit), pow_succ]
        ring

theorem pmBits_start_zero {base m : List Nat} :
    ∀ bits blk (result : List Nat), blk % 2 ^ bits = 0 →
      pmBits base m blk bits result true = .ok (result, true) := by
  intro bits
  induction bits with
  | zero => intro blk result _; rfl
  | succ b ih =>
    intro blk result hz
    have hdm := mod_two_pow_succ blk b
    have hlow : blk % 2 ^ b = 0 := by omega
    have hmulz : 2 ^ b * (blk / 2 ^ b % 2) = 0 := by omega
    have hbit2 : blk / 2 ^ b % 2 = 0 := by
      rcases Nat.mul_eq_zero.mp hmulz with h | h
      · exact absurd h (Nat.pos_iff_ne_zero.mp (Nat.two_pow_pos b))
      · exact h
    have hbit : Nat.testBit blk b = false := by
      rw [Nat.testBit_to_div_mod, hbit2]
      simp
    rw [pmBits]
    have hcond : (true && !(Nat.testBit blk b)) = true := by rw [hbit]; simp
    rw [if_pos hcond]
    exact ih blk result hlow

theorem pmBits_start_nz {base m : List Nat} (hbb : Blocks32 base)
    (hbm : Blocks32 m) (hcm : bn_canonical m) (hm : 0 < bn_value m) :
    ∀ bits blk, 0 < blk % 2 ^ bits →
      ∃ r, pmBits base m blk bits [1] true = .ok (r, false) ∧ Blocks32 r ∧
        bn_canonical r ∧
        bn_value r = bn_value base ^ (blk % 2 ^ bits) % bn_value m := by
  intro bits
  induction bits with
  | zero =>
    intro blk h
    rw [pow_zero, Nat.mod_one] at h
    exact absurd h (by norm_num)
  | succ b ih =>
    intro blk hpos2
    by_cases hbit : Nat.testBit blk b
    · -- first set bit found here
      have hone : Blocks32 [1] := by
        intro x hx
        rcases List.mem_singleton.mp hx with rfl
        norm_num
      have honec : bn_canonical [1] := ⟨by simp, Or.inl rfl⟩
      obtain ⟨r1, hr1, hr1val, hr1b, hr1c⟩ := bn_multiply_spec hone hone
      have hr1canon : bn_canonical r1 := hr1c (by simp)
      have hr1v : bn_value r1 = 1 := by
        rw [hr1val]
        simp [bn_value]
      obtain ⟨r2, hr2, hr2val, hr2b, hr2c⟩ := bn_multiply_spec hr1b hbb
      have hr2canon : bn_canonical r2 := hr2c hr1canon.1
      have hr2v : bn_value r2 = bn_value base := by
        rw [hr2val, hr1v, Nat.one_mul]
      obtain ⟨r3, hr3, hr3val, hr3c, hr3b⟩ := bn_mod_spec hr2b hbm hcm hm
      have hr3v : bn_value r3 = bn_value base ^ 1 % bn_value m := by
        rw [hr3val, hr2v, pow_one]
      obtain ⟨r, hr, hrb, hrc, hrval⟩ := pmBits_go hbb hbm hcm hm b blk r3 1 hr3b hr3c hr3v
      refine ⟨r, ?_, hrb, hrc, ?_⟩
      · rw [pmBits]
        have hcond : ¬ (true && !(Nat.testBit blk b)) = true := by
          rw [hbit]
          simp
        simp only [if_neg hcond, hr1, if_pos hbit, hr2, hr3]
        exact hr
      · rw [hrval, (testBit_mod_decomp).1 hbit]
        congr 2
        omega
    · -- still searching
      have hb0 : Nat.testBit blk b = false := by simpa using hbit
      have hdec := (testBit_mod_decomp).2 hb0
      have hlow : 0 < blk % 2 ^ b := by omega
      obtain ⟨r, hr, hrb, hrc, hrval⟩ := ih blk hlow
      refine ⟨r, ?_, hrb, hrc, ?_⟩
      · rw [pmBits]
        have hcond : (true && !(Nat.testBit blk b)) = true := by
          rw [hb0]
          simp
        rw [if_pos hcond]
        exact hr
      · rw [hrval, hdec]

theorem pmBlocks_go {base m : List Nat} (hbb : Blocks32 base) (hbm : Blocks32 m)
    (hcm : bn_canonical m) (hm : 0 < bn_value m) :
    ∀ (blocks result : List Nat) (A : Nat), Blocks32 blocks → Blocks32 result →
      bn_canonical result →
      bn_value result = bn_value base ^ A % bn_value m →
      ∃ r, pmBlocks base m blocks result false = .ok (r, false) ∧ Blocks32 r ∧
        bn_canonical r ∧
        bn_value r = bn_value base ^ (A * 2 ^ (32 * blocks.length) + msValue blocks)
          % bn_value m := by
  intro blocks
  induction blocks with
  | nil =>
    intro result A _ hbr hcr hval
    refine ⟨result, rfl, hbr, hcr, ?_⟩
    simp only [List.length_nil, Nat.mul_zero, pow_zero, Nat.mul_one, msValue,
      Nat.add_zero]
    exact hval
  | cons blk rest ih =>
    intro result A hblk hbr hcr hval
    have hblk32 : blk < 2 ^ 32 := hblk blk (by simp)
    have hbrest : Blocks32 rest := fun x hx => hblk x (by simp [hx])
    obtain ⟨r1, hpm1, hr1b, hr1c, hr1val⟩ :=
      pmBits_go hbb hbm hcm hm 32 blk result A hbr hcr hval
    have hr1v : bn_value r1 = bn_value base ^ (A * 2 ^ 32 + blk) % bn_value m := by
      rw [hr1val, Nat.mod_eq_of_lt hblk32]
    obtain ⟨r, hr, hrb, hrc, hrval⟩ := ih r1 (A * 2 ^ 32 + blk) hbrest hr1b hr1c hr1v
    refine ⟨r, ?_, hrb, hrc, ?_⟩
    · rw [pmBlocks]
      simp only [hpm1]
      exact hr
    · rw [hrval]
      have hE : (A * 2 ^ 32 + blk) * 2 ^ (32 * rest.length) + msValue rest
          = A * 2 ^ (32 * (blk :: rest).length) + msValue (blk :: rest) := by
        simp only [msValue, List.length_cons]
        rw [show 32 * (rest.length + 1) = 32 * rest.length + 32 by ring, pow_add]
        ring
      rw [hE]

theorem pmBlocks_start_zero {base m : List Nat} :
    ∀ (blocks result : List Nat), Blocks32 blocks → msValue blocks = 0 →
      pmBlocks base m blocks result true = .ok (result, true) := by
  intro blocks
  induction blocks with
  | nil => intro result _ _; rfl
  | cons blk rest ih =>
    intro result hblk hz
    have hpow : 0 < 2 ^ (32 * rest.length) := Nat.two_pow_pos _
    have hblk0 : blk = 0 := by
      simp only [msValue] at hz
      rcases Nat.mul_eq_zero.mp (by omega : blk * 2 ^ (32 * rest.length) = 0) with h | h
      · exact h
      · omega
    have hrest0 : msValue rest = 0 := by
      simp only [msValue] at hz
      omega
    rw [pmBlocks]
    have h1 := @pmBits_start_zero base m 32 blk result
      (by rw [hblk0]; simp)
    simp only [h1]
    exact ih result (fun x hx => hblk x (by simp [hx])) hrest0

theorem pmBlocks_start_nz {base m : List Nat} (hbb : Blocks32 base)
    (hbm : Blocks32 m) (hcm : bn_canonical m) (hm : 0 < bn_value m) :
    ∀ blocks, Blocks32 blocks → 0 < msValue blocks →
      ∃ r, pmBlocks base m blocks [1] true = .ok (r, false) ∧ Blocks32 r ∧
        bn_canonical r ∧
        bn_value r = bn_value base ^ msValue blocks % bn_value m := by
  intro blocks
  induction blocks with
  | nil =>
    intro _ h
    simp [msValue] at h
  | cons blk rest ih =>
    intro hblk hpos2
    have hblk32 : blk < 2 ^ 32 := hblk blk (by simp)
    have hbrest : Blocks32 rest := fun x hx => hblk x (by simp [hx])
    by_cases hb0 : blk = 0
    · -- leading zero block: still searching
      have hrestpos : 0 < msValue rest := by
        simp only [msValue, hb0, Nat.zero_mul, Nat.zero_add] at hpos2
        exact hpos2
      obtain ⟨r, hr, hrb, hrc, hrval⟩ := ih hbrest hrestpos
      refine ⟨r, ?_, hrb, hrc, ?_⟩
      · rw [pmBlocks]
        have h1 := @pmBits_start_zero base m 32 blk [1]
          (by rw [hb0]; simp)
        simp only [h1]
        exact hr
      · rw [hrval]
        simp [msValue, hb0]
    · -- the most significant nonzero block
      have hlow : 0 < blk % 2 ^ 32 := by
        rw [Nat.mod_eq_of_lt hblk32]
        omega
      obtain ⟨r1, hpm1, hr1b, hr1c, hr1val⟩ := pmBits_start_nz hbb hbm hcm hm 32 blk hlow
      have hr1v : bn_value r1 = bn_value base ^ blk % bn_value m := by
        rw [hr1val, Nat.mod_eq_of_lt hblk32]
      obtain ⟨r, hr, hrb, hrc, hrval⟩ :=
        pmBlocks_go hbb hbm hcm hm rest r1 blk hbrest hr1b hr1c hr1v
      refine ⟨r, ?_, hrb, hrc, ?_⟩
      · rw [pmBlocks]
        simp only [hpm1]
        exact hr
      · rw [hrval]
        simp [msValue]

theorem bn_power_mod_spec {base exp m : List Nat} (hbb : Blocks32 base)
    (hbe : Blocks32 exp) (hbm : Blocks32 m) (hcm : bn_canonical m)
    (hm : 0 < bn_value m) :
    (bn_value exp = 0 → bn_power_mod base exp m = .ok bn_one) ∧
    (0 < bn_value exp → ∃ r, bn_power_mod base exp m = .ok r ∧
      bn_value r = bn_value base ^ bn_value exp % bn_value m ∧
      bn_canonical r ∧ Blocks32 r) := by
  have hzt : ¬(m.length = 1 ∧ bn_get_block m 0 = 0) := by
    rw [bn_zero_test_iff hcm]
    omega
  have hberev : Blocks32 exp.reverse := fun x hx => hbe x (List.mem_reverse.mp hx)
  have hms : msValue exp.reverse = bn_value exp := msValue_reverse exp
  constructor
  · intro hz
    have h0 := @pmBlocks_start_zero base m exp.reverse bn_one hberev
      (by rw [hms]; exact hz)
    rw [bn_power_mod, if_neg hzt, h0]
    rfl
  · intro hpos
    obtain ⟨r, hr, hrb, hrc, hrval⟩ := pmBlocks_start_nz hbb hbm hcm hm exp.reverse
      hberev (by rw [hms]; exact hpos)
    refine ⟨bn_trim r, ?_, ?_, bn_trim_canonical hrc.1, bn_trim_blocks32 hrb⟩
    · rw [bn_power_mod, if_neg hzt]
      have h1 : pmBlocks base m exp.reverse bn_one true = .ok (r, false) := hr
      rw [h1]
    · rw [bn_trim_value, hrval, hms]

theorem bn_power_mod_zero_mod {base exp m : List Nat} (hcm : bn_canonical m)
    (hz : bn_value m = 0) : bn_power_mod base exp m = .error .divideByZero := by
  rw [bn_power_mod, if_pos ((bn_zero_test_iff hcm).mpr hz)]

/-! ### Hex parsing -/

/-- A hex digit: 0-9, a-f or A-F (compared by character code as in C). -/
def isHexDigit (c : Char) : Bool :=
  decide ((Char.toNat '0' ≤ c.toNat ∧ c.toNat ≤ Char.toNat '9') ∨
    (Char.toNat 'a' ≤ c.toNat ∧ c.toNat ≤ Char.toNat 'f') ∨
    (Char.toNat 'A' ≤ c.toNat ∧ c.toNat ≤ Char.toNat 'F'))

/-- The value of a hex digit character. -/
def hexVal (c : Char) : Nat :=
  if Char.toNat '0' ≤ c.toNat ∧ c.toNat ≤ Char.toNat '9' then
    c.toNat - Char.toNat '0'
  else if Char.toNat 'a' ≤ c.toNat ∧ c.toNat ≤ Char.toNat 'f' then
    10 + c.toNat - Char.toNat 'a'
  else
    10 + c.toNat - Char.toNat 'A'

/-- The parsing loop of `bn_from_hex`: consumes the characters from the
least-significant end (the input list is the reversed string), skipping
spaces, packing 8 hex digits per 32-bit block, and writing each full block
at the next offset.  Returns the final accumulator state. -/
def fromHexLoop (cs : List Char) (block hex_chars_read offset : Nat)
    (result : List Nat) : Except BnError (Nat × Nat × Nat × List Nat) :=
  match cs with
  | [] => .ok (block, hex_chars_read, offset, result)
  | c :: rest =>
    if c = ' ' then fromHexLoop rest block hex_chars_read offset result
    else
      let block' := (block + (hexVal c <<< (4 * hex_chars_read))) % 2 ^ 32
      if hex_chars_read + 1 = 8 then
        match bn_write_block result offset block' with
        | .error e => .error e
        | .ok result' => fromHexLoop rest 0 0 (offset + 1) result'
      else fromHexLoop rest block' (hex_chars_read + 1) offset result

/-- `bn_from_hex`: fails with `invalidInput` on any character that is
neither a hex digit nor a space, or when no hex digit is present; otherwise
packs the digits into blocks of 8 from the least-significant end and trims. -/
def bn_from_hex (s : List Char) : Except BnError (List Nat) :=
  if ∀ c ∈ s, isHexDigit c = true ∨ c = ' ' then
    if (s.filter (fun c => isHexDigit c)).length = 0 then .error .invalidInput
    else
      let len := ((s.filter (fun c => isHexDigit c)).length + 7) / 8
      match fromHexLoop s.reverse 0 0 0 (bn_with_len len) with
      | .error e => .error e
      | .ok st =>
        if st.2.1 ≠ 0 then
          match bn_write_block st.2.2.2 st.2.2.1 st.1 with
          | .error e => .error e
          | .ok result' => .ok (bn_trim result')
        else .ok (bn_trim st.2.2.2)
  else .error .invalidInput

/-- The number denoted by a least-significant-first list of digit values in
base 16. -/
def digitsVal : List Nat → Nat
  | [] => 0
  | d :: rest => d + 16 * digitsVal rest

/-- The number denoted by the hex digits of the string, most significant
digit first, spaces ignored. -/
def hexStringValue (s : List Char) : Nat :=
  (s.filter (fun c => isHexDigit c)).foldl (fun a c => 16 * a + hexVal c) 0

theorem hexVal_lt {c : Char} (h : isHexDigit c = true) : hexVal c < 16 := by
  rw [isHexDigit] at h
  have h0 : Char.toNat '0' = 48 := rfl
  have h9 : Char.toNat '9' = 57 := rfl
  have ha : Char.toNat 'a' = 97 := rfl
  have hf : Char.toNat 'f' = 102 := rfl
  have hA : Char.toNat 'A' = 65 := rfl
  have hF : Char.toNat 'F' = 70 := rfl
  have hd := of_decide_eq_true h
  rw [hexVal]
  rcases hd with h1 | h1 | h1
  · rw [if_pos h1]
    omega
  · rw [if_neg (by omega), if_pos h1]
    omega
  · rw [if_neg (by omega), if_neg (by omega)]
    omega

theorem digitsVal_append_singleton (xs : List Nat) (d : Nat) :
    digitsVal (xs ++ [d]) = digitsVal xs + d * 16 ^ xs.length := by
  induction xs with
  | nil => simp [digitsVal]
  | cons x rest ih =>
    rw [List.cons_append]
    simp only [digitsVal, List.length_cons]
    rw [ih, pow_succ]
    ring

theorem hexFold_eq_digitsVal :
    ∀ (ds : List Char) (a : Nat),
      ds.foldl (fun a c => 16 * a + hexVal c) a
        = a * 16 ^ ds.length + digitsVal ((ds.map hexVal).reverse) := by
  intro ds
  induction ds with
  | nil => intro a; simp [digitsVal]
  | cons c rest ih =>
    intro a
    simp only [List.foldl_cons, List.map_cons, List.reverse_cons]
    rw [ih, digitsVal_append_singleton]
    simp only [List.length_map, List.length_reverse, List.length_cons]
    rw [pow_succ]
    ring

theorem hexStringValue_eq (s : List Char) :
    hexStringValue s = digitsVal (((s.filter (fun c => isHexDigit c)).map hexVal).reverse) := by
  rw [hexStringValue, hexFold_eq_digitsVal]
  simp

theorem bn_get_block_set_of_gt (v : Nat) :
    ∀ (n : List Nat) (o j : Nat), o < j →
      bn_get_block (bn_set n o v) j = bn_get_block n j := by
  intro n
  induction n with
  | nil => intro o j h; simp [bn_set]
  | cons b rest ih =>
    intro o j h
    cases o with
    | zero =>
      cases j with
      | zero => omega
      | succ j => simp [bn_set, bn_get_block]
    | succ o =>
      cases j with
      | zero => omega
      | succ j => simpa [bn_set, bn_get_block] using ih o j (by omega)

theorem valFrom_zero_of_get_zero :
    ∀ (fuel : Nat) (n : List Nat) (o : Nat), n.length - o ≤ fuel →
      (∀ j, o ≤ j → bn_get_block n j = 0) → valFrom n o = 0 := by
  intro fuel
  induction fuel with
  | zero =>
    intro n o hf _
    exact valFrom_of_le_length (by omega)
  | succ f ih =>
    intro n o hf hz
    rcases Nat.lt_or_ge o n.length with ho | ho
    · rw [valFrom_succ, hz o (le_refl o), ih n (o + 1) (by omega)
        (fun j hj => hz j (by omega))]
      ring
    · exact valFrom_of_le_length ho

theorem bn_set_value_of_upper_zero {n : List Nat} {o : Nat} (ho : o < n.length)
    (hz : ∀ j, o ≤ j → bn_get_block n j = 0) (v : Nat) :
    bn_value (bn_set n o v) = bn_value n + v * 2 ^ (32 * o) := by
  have ht1 := bn_value_take_add (bn_set n o v) o
  have ht0 := bn_value_take_add n o
  have htake : (bn_set n o v).take o = n.take o := bn_set_take_of_le v n o
  have hvf0 : valFrom n o = 0 :=
    valFrom_zero_of_get_zero (n.length - o) n o (le_refl _) hz
  have hvfs : valFrom (bn_set n o v) o = v := by
    rw [valFrom_succ, bn_get_block_set_self _ _ _ ho]
    have hd : valFrom (bn_set n o v) (o + 1) = valFrom n (o + 1) := by
      rw [valFrom, valFrom, bn_set_drop_of_lt _ _ _ _ (by omega)]
    rw [hd]
    have : valFrom n (o + 1) = 0 :=
      valFrom_zero_of_get_zero (n.length - (o + 1)) n (o + 1) (le_refl _)
        (fun j hj => hz j (by omega))
    rw [this]
    ring
  rw [ht1, htake, hvfs, ht0, hvf0]
  ring

theorem pow16_eq (h : Nat) : (16:Nat) ^ h = 2 ^ (4 * h) := by
  rw [show (16:Nat) = 2 ^ 4 from rfl, ← pow_mul]

theorem fromHexLoop_spec (L numHex : Nat) (hLnum : L = (numHex + 7) / 8) :
    ∀ (cs : List Char) (block h o : Nat) (result : List Nat),
      (∀ c ∈ cs, isHexDigit c = true ∨ c = ' ') →
      h < 8 → block < 16 ^ h →
      result.length = L → Blocks32 result →
      (∀ j, o ≤ j → bn_get_block result j = 0) →
      8 * o + h + (cs.filter (fun c => isHexDigit c)).length = numHex →
      ∃ block' h' o' result',
        fromHexLoop cs block h o result = .ok (block', h', o', result') ∧
        result'.length = L ∧ Blocks32 result' ∧ h' < 8 ∧ block' < 16 ^ h' ∧
        (∀ j, o' ≤ j → bn_get_block result' j = 0) ∧
        8 * o' + h' = numHex ∧
        bn_value result' + block' * 2 ^ (32 * o')
          = bn_value result + (block + 16 ^ h *
              digitsVal ((cs.filter (fun c => isHexDigit c)).map hexVal)) * 2 ^ (32 * o) := by
  intro cs
  induction cs with
  | nil =>
    intro block h o result _ hh hb hlen hb32 hup hcount
    refine ⟨block, h, o, result, rfl, hlen, hb32, hh, hb, hup, ?_, ?_⟩
    · simpa using hcount
    · simp [digitsVal]
  | cons c rest ih =>
    intro block h o result hvalid hh hb hlen hb32 hup hcount
    by_cases hsp : c = ' '
    · -- space: skipped, nothing changes
      have hfe : (c :: rest).filter (fun x => isHexDigit x) =
          rest.filter (fun x => isHexDigit x) := by
        subst hsp
        rw [List.filter_cons]
        have hws : isHexDigit ' ' = false := by decide
        simp [hws]
      rw [hfe] at hcount
      obtain ⟨b', h', o', r', hloop, hp⟩ := ih block h o result
        (fun x hx => hvalid x (by simp [hx])) hh hb hlen hb32 hup hcount
      refine ⟨b', h', o', r', ?_, ?_⟩
      · rw [fromHexLoop, if_pos hsp]
        exact hloop
      · rw [hfe]
        exact hp
    · -- a hex digit
      have hhex : isHexDigit c = true := by
        rcases hvalid c (by simp) with h1 | h1
        · exact h1
        · exact absurd h1 hsp
      have hfe : (c :: rest).filter (fun x => isHexDigit x) =
          c :: rest.filter (fun x => isHexDigit x) := by
        rw [List.filter_cons, if_pos (by simpa using hhex)]
      rw [hfe] at hcount
      simp only [List.length_cons] at hcount
      have hv16 : hexVal c < 16 := hexVal_lt hhex
      have hsh : hexVal c <<< (4 * h) = hexVal c * 2 ^ (4 * h) := Nat.shiftLeft_eq _ _
      have h16h : (16:Nat) ^ h = 2 ^ (4 * h) := pow16_eq h
      have hlt : block + hexVal c * 2 ^ (4 * h) < 16 ^ (h + 1) := by
        have hstep : hexVal c * 2 ^ (4 * h) + 2 ^ (4 * h) ≤ 16 * 2 ^ (4 * h) := by
          have : (hexVal c + 1) * 2 ^ (4 * h) ≤ 16 * 2 ^ (4 * h) :=
            Nat.mul_le_mul_right _ (by omega)
          calc hexVal c * 2 ^ (4 * h) + 2 ^ (4 * h)
              = (hexVal c + 1) * 2 ^ (4 * h) := by ring
            _ ≤ 16 * 2 ^ (4 * h) := this
        have h16h1 : (16:Nat) ^ (h + 1) = 16 * 2 ^ (4 * h) := by
          rw [pow_succ, h16h]
          ring
        rw [h16h1]
        rw [h16h] at hb
        omega
    -- the accumulated block is still a 32-bit value
      have h168 : (16:Nat) ^ (h + 1) ≤ 2 ^ 32 := by
        calc (16:Nat) ^ (h + 1) = 2 ^ (4 * (h + 1)) := pow16_eq _
          _ ≤ 2 ^ 32 := Nat.pow_le_pow_right (by norm_num) (by omega)
      have hmod : (block + hexVal c <<< (4 * h)) % 2 ^ 32
          = block + hexVal c * 2 ^ (4 * h) := by
        rw [hsh]
        exact Nat.mod_eq_of_lt (by omega)
      by_cases hfull : h + 1 = 8
      · -- the block is complete: write it at the current offset
        have h7 : h = 7 := by omega
        subst h7
        have hrest1 : 1 ≤ (rest.filter (fun x => isHexDigit x)).length + 1 := by omega
        have ho : o < L := by
          have h8 : 8 * (o + 1) ≤ numHex := by omega
          have h1 : o + 1 ≤ numHex / 8 := by
            rw [Nat.le_div_iff_mul_le (by norm_num)]
            omega
          have h2 : numHex / 8 ≤ (numHex + 7) / 8 := Nat.div_le_div_right (by omega)
          omega
        have hoL : o < result.length := by omega
        have hB1lt : block + hexVal c * 2 ^ (4 * 7) < 2 ^ 32 := by
          have := hlt
          omega
        have hset_len : (bn_set result o (block + hexVal c * 2 ^ (4 * 7))).length = L := by
          rw [bn_set_length]
          exact hlen
        have hset_b32 : Blocks32 (bn_set result o (block + hexVal c * 2 ^ (4 * 7))) :=
          bn_set_blocks32 hB1lt result o hb32
        have hset_up : ∀ j, o + 1 ≤ j →
            bn_get_block (bn_set result o (block + hexVal c * 2 ^ (4 * 7))) j = 0 := by
          intro j hj
          rw [bn_get_block_set_of_gt _ _ _ _ (by omega)]
          exact hup j (by omega)
        have hset_val : bn_value (bn_set result o (block + hexVal c * 2 ^ (4 * 7)))
            = bn_value result + (block + hexVal c * 2 ^ (4 * 7)) * 2 ^ (32 * o) :=
          bn_set_value_of_upper_zero hoL hup _
        obtain ⟨b', h', o', r', hloop, hr'len, hr'b, hh', hb', hup', hcount', hval'⟩ :=
          ih 0 0 (o + 1) (bn_set result o (block + hexVal c * 2 ^ (4 * 7)))
            (fun x hx => hvalid x (by simp [hx])) (by norm_num) (by norm_num)
            hset_len hset_b32 hset_up (by omega)
        refine ⟨b', h', o', r', ?_, hr'len, hr'b, hh', hb', hup', hcount', ?_⟩
        · rw [fromHexLoop, if_neg hsp]
          simp only [hmod, if_pos (by norm_num : 7 + 1 = 8),
            bn_write_block_ok hoL]
          exact hloop
        · rw [hval', hset_val, hfe]
          simp only [List.map_cons, digitsVal]
          rw [show 32 * (o + 1) = 32 * o + 32 by ring, pow_add]
          norm_num
          ring
      · -- partial block: keep accumulating
        obtain ⟨b', h', o', r', hloop, hr'len, hr'b, hh', hb', hup', hcount', hval'⟩ :=
          ih (block + hexVal c * 2 ^ (4 * h)) (h + 1) o result
            (fun x hx => hvalid x (by simp [hx])) (by omega) hlt hlen hb32 hup (by omega)
        refine ⟨b', h', o', r', ?_, hr'len, hr'b, hh', hb', hup', hcount', ?_⟩
        · rw [fromHexLoop, if_neg hsp]
          simp only [hmod, if_neg hfull]
          exact hloop
        · rw [hval', hfe]
          simp only [List.map_cons, digitsVal]
          rw [pow_succ, h16h]
          ring

theorem bn_from_hex_invalid {s : List Char}
    (h : ¬ ∀ c ∈ s, isHexDigit c = true ∨ c = ' ') :
    bn_from_hex s = .error .invalidInput := by
  rw [bn_from_hex, if_neg h]

theorem bn_from_hex_empty {s : List Char}
    (hvalid : ∀ c ∈ s, isHexDigit c = true ∨ c = ' ')
    (h : (s.filter (fun c => isHexDigit c)).length = 0) :
    bn_from_hex s = .error .invalidInput := by
  rw [bn_from_hex, if_pos hvalid, if_pos h]

theorem bn_from_hex_spec {s : List Char}
    (hvalid : ∀ c ∈ s, isHexDigit c = true ∨ c = ' ')
    (hne : (s.filter (fun c => isHexDigit c)).length ≠ 0) :
    ∃ r, bn_from_hex s = .ok r ∧ bn_canonical r ∧ Blocks32 r ∧
      bn_value r = hexStringValue s := by
  have hfrev : s.reverse.filter (fun c => isHexDigit c)
      = (s.filter (fun c => isHexDigit c)).reverse := List.filter_reverse _ _
  have hlenrev : (s.reverse.filter (fun c => isHexDigit c)).length
      = (s.filter (fun c => isHexDigit c)).length := by
    rw [hfrev, List.length_reverse]
  have hL : (bn_with_len (((s.filter (fun c => isHexDigit c)).length + 7) / 8)).length
      = ((s.filter (fun c => isHexDigit c)).length + 7) / 8 := by
    simp [bn_with_len]
  have hrep32 : Blocks32 (bn_with_len (((s.filter (fun c => isHexDigit c)).length + 7) / 8)) := by
    intro x hx
    rw [bn_with_len] at hx
    have := List.eq_of_mem_replicate hx
    subst this
    norm_num
  have hupz : ∀ j, 0 ≤ j →
      bn_get_block (bn_with_len (((s.filter (fun c => isHexDigit c)).length + 7) / 8)) j
        = 0 := by
    intro j _
    rw [bn_with_len]
    exact bn_get_block_replicate _ j
  obtain ⟨b', h', o', r', hloop, hr'len, hr'b, hh', hb', hup', hcount', hval'⟩ :=
    fromHexLoop_spec (((s.filter (fun c => isHexDigit c)).length + 7) / 8)
      ((s.filter (fun c => isHexDigit c)).length) rfl s.reverse 0 0 0
      (bn_with_len (((s.filter (fun c => isHexDigit c)).length + 7) / 8))
      (fun x hx => hvalid x (List.mem_reverse.mp hx)) (by norm_num) (by norm_num)
      hL hrep32 hupz (by rw [hlenrev]; ring)
  have hD : digitsVal ((s.reverse.filter (fun c => isHexDigit c)).map hexVal)
      = hexStringValue s := by
    rw [hfrev, List.map_reverse, hexStringValue_eq]
  have hvalsimp : bn_value r' + b' * 2 ^ (32 * o') = hexStringValue s := by
    rw [hval', hD]
    rw [bn_with_len, bn_value_replicate_zero]
    norm_num
  have hLpos : 0 < ((s.filter (fun c => isHexDigit c)).length + 7) / 8 :=
    Nat.div_pos (by omega) (by norm_num)
  by_cases hz : h' = 0
  · -- the digit count is a multiple of 8: no final partial block
    have hb0 : b' = 0 := by
      rw [hz] at hb'
      simpa using hb'
    refine ⟨bn_trim r', ?_, bn_trim_canonical ?_, bn_trim_blocks32 hr'b, ?_⟩
    · rw [bn_from_hex, if_pos hvalid, if_neg hne]
      simp only [hloop]
      rw [if_neg (by simpa using hz)]
    · intro hnil
      rw [hnil] at hr'len
      simp at hr'len
      omega
    · rw [bn_trim_value]
      rw [hb0] at hvalsimp
      simpa using hvalsimp
  · -- write the final partial block
    have ho'L : o' < ((s.filter (fun c => isHexDigit c)).length + 7) / 8 := by
      have h8 : 8 * o' + 1 ≤ (s.filter (fun c => isHexDigit c)).length := by omega
      have h1 : o' ≤ ((s.filter (fun c => isHexDigit c)).length - 1) / 8 := by
        rw [Nat.le_div_iff_mul_le (by norm_num)]
        omega
      have h2 : ((s.filter (fun c => isHexDigit c)).length - 1) / 8 + 1
          = ((s.filter (fun c => isHexDigit c)).length + 7) / 8 := by
        rw [show (s.filter (fun c => isHexDigit c)).length + 7
          = ((s.filter (fun c => isHexDigit c)).length - 1) + 8 by omega]
        rw [Nat.add_div_right _ (by norm_num)]
      omega
    have ho'len : o' < r'.length := by omega
    have hb32' : b' < 2 ^ 32 := by
      have h1 : (16:Nat) ^ h' ≤ 16 ^ 7 := Nat.pow_le_pow_right (by norm_num) (by omega)
      have h2 : (16:Nat) ^ 7 < 2 ^ 32 := by norm_num
      omega
    have hsetval : bn_value (bn_set r' o' b') = bn_value r' + b' * 2 ^ (32 * o') :=
      bn_set_value_of_upper_zero ho'len hup' b'
    refine ⟨bn_trim (bn_set r' o' b'), ?_, bn_trim_canonical ?_, ?_, ?_⟩
    · rw [bn_from_hex, if_pos hvalid, if_neg hne]
      simp only [hloop]
      rw [if_pos (by simpa using hz)]
      rw [bn_write_block_ok ho'len]
    · intro hnil
      have := bn_set_length r' o' b'
      rw [hnil] at this
      simp at this
      omega
    · exact bn_trim_blocks32 (bn_set_blocks32 hb32' r' o' hr'b)
    · rw [bn_trim_value, hsetval, hvalsimp]

/-! ### The claims -/

instance : DecidablePred Blocks32 := fun n => by
  unfold Blocks32; infer_instance

/-- C1: for canonical 32-bit operands with a nonzero divisor b,
divide-with-remainder returns a quotient q and remainder r with
multiply(q, b) + r recovering a exactly and r < b by compare; q and r are
also the results of divide and mod respectively. -/
theorem claim_C1 {a b : List Nat} (hca : bn_canonical a) (hcb : bn_canonical b)
    (hba : Blocks32 a) (hbb : Blocks32 b) (hpos : 0 < bn_value b) :
    ∃ q r, bn_divide_with_remainder a b = .ok (q, r) ∧
      bn_divide a b = .ok q ∧ bn_mod a b = .ok r ∧
      (∃ p, bn_multiply q b = .ok p ∧ bn_add p r = .ok a) ∧
      bn_less_than r b = true := by
  obtain ⟨q, r, hdwr, hqv, hrv, hcq, hcr, hbq, hbr⟩ :=
    bn_divide_with_remainder_spec hba hbb hcb hpos
  obtain ⟨p, hpok, hpv, hbp, hpc⟩ := bn_multiply_spec hbq hbb
  obtain ⟨s, hsok, hsv, hcs, hbs⟩ := bn_add_spec hbp hbr
  have hsva : bn_value s = bn_value a := by
    rw [hsv, hpv, hqv, hrv, Nat.mul_comm]
    exact Nat.div_add_mod _ _
  have hseq : s = a := bn_value_injective hcs hca hbs hba hsva
  refine ⟨q, r, hdwr, ?_, ?_, ⟨p, hpok, by rw [hsok, hseq]⟩, ?_⟩
  · rw [bn_divide, hdwr]
  · rw [bn_mod, hdwr]
  · rw [bn_less_than_correct hcr hcb hbr hbb]
    simp only [decide_eq_true_eq]
    rw [hrv]
    exact Nat.mod_lt _ hpos

theorem claim_C1_witness :
    ∃ q r, bn_divide_with_remainder [7] [3] = .ok (q, r) ∧
      bn_divide [7] [3] = .ok q ∧ bn_mod [7] [3] = .ok r ∧
      (∃ p, bn_multiply q [3] = .ok p ∧ bn_add p r = .ok [7]) ∧
      bn_less_than r [3] = true :=
  claim_C1 (by decide) (by decide) (by decide) (by decide) (by decide)

/-- C2 counterexample: with base 5, exponent 0 and modulus 1 the code
returns the number one, whose value 1 is not 5^0 mod 1 = 0, so powerMod does
not always return the remainder base^exponent mod m. -/
theorem claim_C2_counterexample :
    bn_power_mod [5] [0] [1] = .ok [1] ∧ bn_value [1] ≠ 5 ^ 0 % 1 :=
  ⟨rfl, by decide⟩

/-- C2 (amended): for canonical 32-bit operands and a nonzero modulus m,
powerMod returns the remainder base^exponent mod m whenever the exponent is
nonzero or m exceeds one; for a zero exponent it returns the number one
unreduced, which differs from the remainder exactly when m is one. -/
theorem claim_C2 {base exp m : List Nat} (hbb : Blocks32 base)
    (hbe : Blocks32 exp) (hbm : Blocks32 m) (hcm : bn_canonical m)
    (hm : 0 < bn_value m) :
    (0 < bn_value exp ∨ 1 < bn_value m →
      ∃ r, bn_power_mod base exp m = .ok r ∧
        bn_value r = bn_value base ^ bn_value exp % bn_value m) ∧
    (bn_value exp = 0 → bn_power_mod base exp m = .ok bn_one) := by
  have hs := bn_power_mod_spec hbb hbe hbm hcm hm
  refine ⟨?_, hs.1⟩
  intro hcase
  rcases Nat.eq_zero_or_pos (bn_value exp) with hz | hpos
  · rcases hcase with hpos | hm1
    · omega
    · refine ⟨bn_one, hs.1 hz, ?_⟩
      rw [hz, pow_zero, Nat.mod_eq_of_lt hm1]
      rfl
  · obtain ⟨r, hok, hval, _, _⟩ := hs.2 hpos
    exact ⟨r, hok, hval⟩

theorem claim_C2_witness :
    (0 < bn_value [3] ∨ 1 < bn_value [5] →
      ∃ r, bn_power_mod [2] [3] [5] = .ok r ∧
        bn_value r = bn_value [2] ^ bn_value [3] % bn_value [5]) ∧
    (bn_value [3] = 0 → bn_power_mod [2] [3] [5] = .ok bn_one) :=
  claim_C2 (by decide) (by decide) (by decide) (by decide) (by decide)

/-- C4: add returns a number whose value is the sum of the operand values;
in particular 0xFFFFFFFF + 0xFFFFFFFF gives the little-endian blocks
[0xFFFFFFFE, 1] — most-significant first "1 FFFFFFFE" — of value
0x1FFFFFFFE. -/
theorem claim_C4 :
    (∀ a b : List Nat, Blocks32 a → Blocks32 b →
      ∃ r, bn_add a b = .ok r ∧ bn_value r = bn_value a + bn_value b) ∧
    bn_add [4294967295] [4294967295] = .ok [4294967294, 1] ∧
    bn_value [4294967294, 1] = 8589934590 := by
  refine ⟨?_, rfl, by decide⟩
  intro a b hb1 hb2
  obtain ⟨r, hok, hval, _, _⟩ := bn_add_spec hb1 hb2
  exact ⟨r, hok, hval⟩

theorem claim_C4_witness :
    ∃ r, bn_add [5] [6] = .ok r ∧ bn_value r = bn_value [5] + bn_value [6] :=
  claim_C4.1 [5] [6] (by decide) (by decide)

/-- C9: powerMod with an exponent of value zero returns the number one, for
every nonzero modulus M, the modulus one included. -/
theorem claim_C9 {X E M : List Nat} (hbX : Blocks32 X) (hbE : Blocks32 E)
    (hbM : Blocks32 M) (hcM : bn_canonical M) (hM : 0 < bn_value M)
    (hE : bn_value E = 0) : bn_power_mod X E M = .ok bn_one :=
  (bn_power_mod_spec hbX hbE hbM hcM hM).1 hE

theorem claim_C9_witness : bn_power_mod [5] [0] [1] = .ok bn_one :=
  claim_C9 (by decide) (by decide) (by decide) (by decide) (by decide)
    (by decide)

/-- C5: subtract fails with negativeResult exactly when b > a by compare,
and for a ≥ b it succeeds with the difference d satisfying the inverse law
add(d, b) = a. -/
theorem claim_C5 {a b : List Nat} (hca : bn_canonical a) (hcb : bn_canonical b)
    (hba : Blocks32 a) (hbb : Blocks32 b) :
    (bn_subtract a b = .error .negativeResult ↔ bn_greater_than b a = true) ∧
    (bn_greater_than b a = false →
      ∃ d, bn_subtract a b = .ok d ∧ bn_add d b = .ok a) := by
  have hsub : bn_greater_than b a = false →
      ∃ d, bn_subtract a b = .ok d ∧ bn_add d b = .ok a := by
    intro hgt
    have hle : bn_value b ≤ bn_value a := by
      have hcor := bn_greater_than_correct hcb hca hbb hba
      rw [hgt] at hcor
      have := of_decide_eq_false hcor.symm
      omega
    obtain ⟨d, hok, hval, hcd, hbd⟩ := bn_subtract_spec hca hcb hba hbb hle
    obtain ⟨s, hsok, hsval, hcs, hbs⟩ := bn_add_spec hbd hbb
    have hsa : bn_value s = bn_value a := by rw [hsval, hval]
    have hseq : s = a := bn_value_injective hcs hca hbs hba hsa
    exact ⟨d, hok, by rw [hsok, hseq]⟩
  refine ⟨⟨?_, bn_subtract_eq_err⟩, hsub⟩
  intro herr
  by_contra hne
  have hgt : bn_greater_than b a = false := by
    cases h : bn_greater_than b a
    · rfl
    · exact absurd h hne
  obtain ⟨d, hok, _⟩ := hsub hgt
  rw [hok] at herr
  exact Except.noConfusion herr

theorem claim_C5_witness :
    ((bn_subtract [7] [3] = .error .negativeResult ↔
        bn_greater_than [3] [7] = true) ∧
      (bn_greater_than [3] [7] = false →
        ∃ d, bn_subtract [7] [3] = .ok d ∧ bn_add d [3] = .ok [7])) :=
  claim_C5 (by decide) (by decide) (by decide) (by decide)

/-- C6: divide-with-remainder, divide and mod fail with divideByZero exactly
when the divisor value is zero, powerMod fails with divideByZero exactly
when the modulus value is zero, and each of them succeeds on every nonzero
divisor or modulus. -/
theorem claim_C6 :
    (∀ a b : List Nat, Blocks32 a → Blocks32 b → bn_canonical b →
      (bn_divide_with_remainder a b = .error .divideByZero ↔ bn_value b = 0) ∧
      (bn_divide a b = .error .divideByZero ↔ bn_value b = 0) ∧
      (bn_mod a b = .error .divideByZero ↔ bn_value b = 0) ∧
      (0 < bn_value b → (∃ qr, bn_divide_with_remainder a b = .ok qr) ∧
        (∃ q, bn_divide a b = .ok q) ∧ (∃ r, bn_mod a b = .ok r))) ∧
    (∀ base exp m : List Nat, Blocks32 base → Blocks32 exp → Blocks32 m →
      bn_canonical m →
      (bn_power_mod base exp m = .error .divideByZero ↔ bn_value m = 0) ∧
      (0 < bn_value m → ∃ r, bn_power_mod base exp m = .ok r)) := by
  constructor
  · intro a b hba hbb hcb
    rcases Nat.eq_zero_or_pos (bn_value b) with hz | hpos
    · have hdwr := @bn_divide_with_remainder_zero a b hcb hz
      refine ⟨⟨fun _ => hz, fun _ => hdwr⟩, ⟨fun _ => hz, ?_⟩,
        ⟨fun _ => hz, ?_⟩, ?_⟩
      · intro _; rw [bn_divide, hdwr]
      · intro _; rw [bn_mod, hdwr]
      · omega
    · obtain ⟨q, r, hdwr, _, _, _, _, _, _⟩ :=
        bn_divide_with_remainder_spec hba hbb hcb hpos
      have hdiv : bn_divide a b = .ok q := by rw [bn_divide, hdwr]
      have hmod : bn_mod a b = .ok r := by rw [bn_mod, hdwr]
      refine ⟨⟨?_, fun h => absurd hpos (by omega)⟩,
        ⟨?_, fun h => absurd hpos (by omega)⟩,
        ⟨?_, fun h => absurd hpos (by omega)⟩,
        fun _ => ⟨⟨(q, r), hdwr⟩, ⟨q, hdiv⟩, ⟨r, hmod⟩⟩⟩
      · intro h; rw [hdwr] at h; exact Except.noConfusion h
      · intro h; rw [hdiv] at h; exact Except.noConfusion h
      · intro h; rw [hmod] at h; exact Except.noConfusion h
  · intro base exp m hbb hbe hbm hcm
    rcases Nat.eq_zero_or_pos (bn_value m) with hz | hpos
    · refine ⟨⟨fun _ => hz, fun _ => bn_power_mod_zero_mod hcm hz⟩, ?_⟩
      omega
    · have hs := bn_power_mod_spec hbb hbe hbm hcm hpos
      have hok : ∃ r, bn_power_mod base exp m = .ok r := by
        rcases Nat.eq_zero_or_pos (bn_value exp) with hez | hepos
        · exact ⟨bn_one, hs.1 hez⟩
        · obtain ⟨r, hok, _, _, _⟩ := hs.2 hepos
          exact ⟨r, hok⟩
      refine ⟨⟨?_, fun h => absurd hpos (by omega)⟩, fun _ => hok⟩
      intro h
      obtain ⟨r, hok⟩ := hok
      rw [hok] at h
      exact Except.noConfusion h

theorem claim_C6_witness :
    (bn_divide_with_remainder [7] [3] = .error .divideByZero ↔
      bn_value [3] = 0) ∧
    (bn_divide [7] [3] = .error .divideByZero ↔ bn_value [3] = 0) ∧
    (bn_mod [7] [3] = .error .divideByZero ↔ bn_value [3] = 0) ∧
    (0 < bn_value [3] → (∃ qr, bn_divide_with_remainder [7] [3] = .ok qr) ∧
      (∃ q, bn_divide [7] [3] = .ok q) ∧ (∃ r, bn_mod [7] [3] = .ok r)) :=
  claim_C6.1 [7] [3] (by decide) (by decide) (by decide)

/-- C7: fromHex fails with invalidInput exactly when the string holds a
character that is neither a hex digit nor a space or holds no hex digit at
all; otherwise it returns the canonical number whose value the hex digits
denote read most-significant first with spaces ignored. -/
theorem claim_C7 (s : List Char) :
    (bn_from_hex s = .error .invalidInput ↔
      ¬ (∀ c ∈ s, isHexDigit c = true ∨ c = ' ') ∨
        (s.filter (fun c => isHexDigit c)).length = 0) ∧
    ((∀ c ∈ s, isHexDigit c = true ∨ c = ' ') →
      (s.filter (fun c => isHexDigit c)).length ≠ 0 →
      ∃ r, bn_from_hex s = .ok r ∧ bn_canonical r ∧
        bn_value r = hexStringValue s) := by
  constructor
  · constructor
    · intro herr
      by_cases hvalid : ∀ c ∈ s, isHexDigit c = true ∨ c = ' '
      · by_cases hlen : (s.filter (fun c => isHexDigit c)).length = 0
        · exact Or.inr hlen
        · obtain ⟨r, hok, _, _, _⟩ := bn_from_hex_spec hvalid hlen
          rw [hok] at herr
          exact Except.noConfusion herr
      · exact Or.inl hvalid
    · rintro (hinv | hlen)
      · exact bn_from_hex_invalid hinv
      · by_cases hvalid : ∀ c ∈ s, isHexDigit c = true ∨ c = ' '
        · exact bn_from_hex_empty hvalid hlen
        · exact bn_from_hex_invalid hvalid
  · intro hvalid hne
    obtain ⟨r, hok, hc, _, hval⟩ := bn_from_hex_spec hvalid hne
    exact ⟨r, hok, hc, hval⟩

theorem claim_C7_witness :
    ∃ r, bn_from_hex ['1', 'f'] = .ok r ∧ bn_canonical r ∧
      bn_value r = hexStringValue ['1', 'f'] :=
  (claim_C7 ['1', 'f']).2 (by decide) (by decide)

/-- C3: every number built by a public operation is canonical — zero, one,
fromInteger, fromHex, add, subtract, multiply, both components of
divide-with-remainder, divide, mod and powerMod with a nonzero modulus. -/
theorem claim_C3 :
    bn_canonical bn_zero ∧ bn_canonical bn_one ∧
    (∀ v, bn_canonical (bn_from_uint32_t v)) ∧
    (∀ s r, bn_from_hex s = .ok r → bn_canonical r) ∧
    (∀ a b : List Nat, bn_canonical a → bn_canonical b → Blocks32 a →
      Blocks32 b →
      (∀ r, bn_add a b = .ok r → bn_canonical r) ∧
      (∀ d, bn_subtract a b = .ok d → bn_canonical d) ∧
      (∀ p, bn_multiply a b = .ok p → bn_canonical p) ∧
      (∀ q r, bn_divide_with_remainder a b = .ok (q, r) →
        bn_canonical q ∧ bn_canonical r) ∧
      (∀ q, bn_divide a b = .ok q → bn_canonical q) ∧
      (∀ r, bn_mod a b = .ok r → bn_canonical r)) ∧
    (∀ base exp m : List Nat, Blocks32 base → Blocks32 exp → Blocks32 m →
      bn_canonical m → ∀ r, bn_power_mod base exp m = .ok r →
        bn_canonical r) := by
  refine ⟨by decide, by decide, ?_, ?_, ?_, ?_⟩
  · intro v
    exact ⟨List.cons_ne_nil _ _, Or.inl rfl⟩
  · intro s r hok
    by_cases hvalid : ∀ c ∈ s, isHexDigit c = true ∨ c = ' '
    · by_cases hlen : (s.filter (fun c => isHexDigit c)).length = 0
      · rw [bn_from_hex_empty hvalid hlen] at hok
        exact Except.noConfusion hok
      · obtain ⟨r', hok', hc', _, _⟩ := bn_from_hex_spec hvalid hlen
        obtain rfl := Except.ok.inj (hok'.symm.trans hok)
        exact hc'
    · rw [bn_from_hex_invalid hvalid] at hok
      exact Except.noConfusion hok
  · intro a b hca hcb hba hbb
    refine ⟨?_, ?_, ?_, ?_, ?_, ?_⟩
    · intro r hok
      obtain ⟨r', hok', _, hc', _⟩ := bn_add_spec hba hbb
      obtain rfl := Except.ok.inj (hok'.symm.trans hok)
      exact hc'
    · intro d hok
      cases hgt : bn_greater_than b a
      · have hle : bn_value b ≤ bn_value a := by
          have hcor := bn_greater_than_correct hcb hca hbb hba
          rw [hgt] at hcor
          have := of_decide_eq_false hcor.symm
          omega
        obtain ⟨d', hok', _, hc', _⟩ := bn_subtract_spec hca hcb hba hbb hle
        obtain rfl := Except.ok.inj (hok'.symm.trans hok)
        exact hc'
      · rw [bn_subtract_eq_err hgt] at hok
        exact Except.noConfusion hok
    · intro p hok
      obtain ⟨p', hok', _, _, hc'⟩ := bn_multiply_spec hba hbb
      obtain rfl := Except.ok.inj (hok'.symm.trans hok)
      exact hc' hca.1
    · intro q r hok
      rcases Nat.eq_zero_or_pos (bn_value b) with hz | hpos
      · rw [@bn_divide_with_remainder_zero a b hcb hz] at hok
        exact Except.noConfusion hok
      · obtain ⟨q', r', hdwr, _, _, hcq, hcr, _, _⟩ :=
          bn_divide_with_remainder_spec hba hbb hcb hpos
        have hpq := Except.ok.inj (hdwr.symm.trans hok)
        injection hpq with h1 h2
        subst h1
        subst h2
        exact ⟨hcq, hcr⟩
    · intro q hok
      rcases Nat.eq_zero_or_pos (bn_value b) with hz | hpos
      · rw [bn_divide, @bn_divide_with_remainder_zero a b hcb hz] at hok
        exact Except.noConfusion hok
      · obtain ⟨q', r', hdwr, _, _, hcq, _, _, _⟩ :=
          bn_divide_with_remainder_spec hba hbb hcb hpos
        have hdiv : bn_divide a b = .ok q' := by rw [bn_divide, hdwr]
        obtain rfl := Except.ok.inj (hdiv.symm.trans hok)
        exact hcq
    · intro r hok
      rcases Nat.eq_zero_or_pos (bn_value b) with hz | hpos
      · rw [bn_mod, @bn_divide_with_remainder_zero a b hcb hz] at hok
        exact Except.noConfusion hok
      · obtain ⟨q', r', hdwr, _, _, _, hcr, _, _⟩ :=
          bn_divide_with_remainder_spec hba hbb hcb hpos
        have hmod : bn_mod a b = .ok r' := by rw [bn_mod, hdwr]
        obtain rfl := Except.ok.inj (hmod.symm.trans hok)
        exact hcr
  · intro base exp m hbB hbE hbM hcm r hok
    rcases Nat.eq_zero_or_pos (bn_value m) with hz | hpos
    · rw [bn_power_mod_zero_mod hcm hz] at hok
      exact Except.noConfusion hok
    · have hs := bn_power_mod_spec hbB hbE hbM hcm hpos
      rcases Nat.eq_zero_or_pos (bn_value exp) with hez | hepos
      · obtain rfl := Except.ok.inj ((hs.1 hez).symm.trans hok)
        decide
      · obtain ⟨r', hok', _, hc', _⟩ := hs.2 hepos
        obtain rfl := Except.ok.inj (hok'.symm.trans hok)
        exact hc'

theorem claim_C3_witness :
    bn_canonical bn_zero ∧
    (∀ r, bn_add [5] [6] = .ok r → bn_canonical r) :=
  ⟨claim_C3.1,
    (claim_C3.2.2.2.2.1 [5] [6] (by decide) (by decide) (by decide)
      (by decide)).1⟩

/-- C8: no block write goes out of bounds under each operation's
preconditions — the cascading carry addition succeeds whenever the carried
value fits above the offset, and add, subtract, multiply,
divide-with-remainder, divide, mod and fromHex never return the
assertion-failure value of the block-write primitive. -/
theorem claim_C8 :
    (∀ (n : List Nat) (o v : Nat), Blocks32 n → v < 2 ^ 64 →
      valFrom n o + v < 2 ^ (32 * (n.length - o)) →
      ∃ r, bn_add_block_cascading_unchecked n o v = .ok r) ∧
    (∀ a b : List Nat, bn_canonical a → bn_canonical b → Blocks32 a →
      Blocks32 b →
      bn_add a b ≠ .error .assertFail ∧
      bn_subtract a b ≠ .error .assertFail ∧
      bn_multiply a b ≠ .error .assertFail ∧
      bn_divide_with_remainder a b ≠ .error .assertFail ∧
      bn_divide a b ≠ .error .assertFail ∧
      bn_mod a b ≠ .error .assertFail) ∧
    (∀ s, bn_from_hex s ≠ .error .assertFail) := by
  refine ⟨?_, ?_, ?_⟩
  · intro n o v hb hv64 hfit
    obtain ⟨r, hok, _, _, _, _⟩ := bn_cascading_spec hb hv64 hfit
    exact ⟨r, hok⟩
  · intro a b hca hcb hba hbb
    refine ⟨?_, ?_, ?_, ?_, ?_, ?_⟩
    · intro h
      obtain ⟨r, hok, _, _, _⟩ := bn_add_spec hba hbb
      rw [hok] at h
      exact Except.noConfusion h
    · intro h
      cases hgt : bn_greater_than b a
      · have hle : bn_value b ≤ bn_value a := by
          have hcor := bn_greater_than_correct hcb hca hbb hba
          rw [hgt] at hcor
          have := of_decide_eq_false hcor.symm
          omega
        obtain ⟨d, hok, _, _, _⟩ := bn_subtract_spec hca hcb hba hbb hle
        rw [hok] at h
        exact Except.noConfusion h
      · rw [bn_subtract_eq_err hgt] at h
        exact BnError.noConfusion (Except.error.inj h)
    · intro h
      obtain ⟨p, hok, _, _, _⟩ := bn_multiply_spec hba hbb
      rw [hok] at h
      exact Except.noConfusion h
    · intro h
      rcases Nat.eq_zero_or_pos (bn_value b) with hz | hpos
      · rw [@bn_divide_with_remainder_zero a b hcb hz] at h
        exact BnError.noConfusion (Except.error.inj h)
      · obtain ⟨q, r, hdwr, _, _, _, _, _, _⟩ :=
          bn_divide_with_remainder_spec hba hbb hcb hpos
        rw [hdwr] at h
        exact Except.noConfusion h
    · intro h
      rcases Nat.eq_zero_or_pos (bn_value b) with hz | hpos
      · rw [bn_divide, @bn_divide_with_remainder_zero a b hcb hz] at h
        exact BnError.noConfusion (Except.error.inj h)
      · obtain ⟨q, r, hdwr, _, _, _, _, _, _⟩ :=
          bn_divide_with_remainder_spec hba hbb hcb hpos
        rw [bn_divide, hdwr] at h
        exact Except.noConfusion h
    · intro h
      rcases Nat.eq_zero_or_pos (bn_value b) with hz | hpos
      · rw [bn_mod, @bn_divide_with_remainder_zero a b hcb hz] at h
        exact BnError.noConfusion (Except.error.inj h)
      · obtain ⟨q, r, hdwr, _, _, _, _, _, _⟩ :=
          bn_divide_with_remainder_spec hba hbb hcb hpos
        rw [bn_mod, hdwr] at h
        exact Except.noConfusion h
  · intro s h
    by_cases hvalid : ∀ c ∈ s, isHexDigit c = true ∨ c = ' '
    · by_cases hlen : (s.filter (fun c => isHexDigit c)).length = 0
      · rw [bn_from_hex_empty hvalid hlen] at h
        exact BnError.noConfusion (Except.error.inj h)
      · obtain ⟨r, hok, _, _, _⟩ := bn_from_hex_spec hvalid hlen
        rw [hok] at h
        exact Except.noConfusion h
    · rw [bn_from_hex_invalid hvalid] at h
      exact BnError.noConfusion (Except.error.inj h)

theorem claim_C8_witness :
    (∃ r, bn_add_block_cascading_unchecked [5] 0 7 = .ok r) ∧
    bn_add [5] [6] ≠ .error .assertFail :=
  ⟨claim_C8.1 [5] 0 7 (by decide) (by decide) (by decide),
    (claim_C8.2.1 [5] [6] (by decide) (by decide) (by decide)
      (by decide)).1⟩

/-- C10: in the division loop with canonical operands and a nonzero divisor,
the remainder is strictly below the divisor after every iteration, every
shifted remainder is strictly below divisor·2^32, so the exact 32-bit
quotient digit fits in 32 bits and is the value found by the binary digit
search. -/
theorem claim_C10 {a b : List Nat} (hba : Blocks32 a) (hbb : Blocks32 b)
    (hcb : bn_canonical b) (hpos : 0 < bn_value b) :
    (∀ steps, steps ≤ a.length → ∃ q r, divRun a b steps = .ok (q, r) ∧
      bn_value r < bn_value b) ∧
    (∀ k, k < a.length →
      ∃ q r, divRun a b (a.length - (k + 1)) = .ok (q, r) ∧
        bn_value (bn_trim (bn_get_block a k :: r)) < bn_value b * 2 ^ 32 ∧
        bn_value (bn_trim (bn_get_block a k :: r)) / bn_value b < 2 ^ 32 ∧
        digitSearch b (bn_trim (bn_get_block a k :: r)) 32 0 =
          .ok (bn_value (bn_trim (bn_get_block a k :: r)) / bn_value b)) := by
  constructor
  · intro steps hle
    obtain ⟨q, r, hrun, _, _, _, _, _, hrval, _⟩ :=
      divRun_spec hba hbb hcb hpos steps hle
    exact ⟨q, r, hrun, by rw [hrval]; exact Nat.mod_lt _ hpos⟩
  · intro k hk
    obtain ⟨q, r, hrun, hqlen, hqb, hqpre, hrc, hrb, hrval, hqval⟩ :=
      divRun_spec hba hbb hcb hpos (a.length - (k + 1)) (by omega)
    have hidx : a.length - (a.length - (k + 1)) = k + 1 := by omega
    rw [hidx] at hrval
    have hg : bn_get_block a k < 2 ^ 32 := bn_get_block_lt hba k
    have hr1v : bn_value (bn_trim (bn_get_block a k :: r)) =
        bn_get_block a k + 2 ^ 32 * bn_value r := by
      rw [bn_trim_value]
      rfl
    have hrlt : bn_value r < bn_value b := by
      rw [hrval]
      exact Nat.mod_lt _ hpos
    have hshift : bn_value (bn_trim (bn_get_block a k :: r)) <
        bn_value b * 2 ^ 32 := by
      rw [hr1v]
      have h1 : bn_value r + 1 ≤ bn_value b := hrlt
      have h32 : (2:Nat) ^ 32 = 4294967296 := by norm_num
      rw [h32] at hg ⊢
      omega
    have hdigit : bn_value (bn_trim (bn_get_block a k :: r)) / bn_value b <
        2 ^ 32 := by
      rw [Nat.div_lt_iff_lt_mul hpos, Nat.mul_comm]
      exact hshift
    have hr1c : bn_canonical (bn_trim (bn_get_block a k :: r)) :=
      bn_trim_canonical (by simp)
    have hr1b : Blocks32 (bn_trim (bn_get_block a k :: r)) := by
      apply bn_trim_blocks32
      intro x hx
      rcases List.mem_cons.mp hx with rfl | hx
      · exact hg
      · exact hrb x hx
    have hds := digitSearch_spec hcb hbb hpos hr1c hr1b hdigit 32 0
      (le_refl 32) (by rw [Nat.div_eq_of_lt hdigit, Nat.mul_zero])
    exact ⟨q, r, hrun, hshift, hdigit, hds⟩

theorem claim_C10_witness :
    ∃ q r, divRun [7] [3] 1 = .ok (q, r) ∧ bn_value r < bn_value [3] :=
  (claim_C10 (by decide) (by decide) (by decide) (by decide)).1 1 (by decide)

end BigNumC
